import Mathlib

set_option maxHeartbeats 1000000

/-!
Verification of the `create-yaspp` scaffolding CLI.

This file gives a shallow embedding of the core of `create-yaspp`
(`src/create-yaspp.ts` and the compiled revision of the same program):
the path utilities (`diffPaths`, `normalizePath`, `parseLangs`, the
`confirm` reply test), the filesystem primitives (`copyFolderContent`,
`isEmpty`, `mkdir`, `removeFolder`) over an explicit directory-tree model,
the auto-reply configuration resolver (`getConfiguration`), and the main
provisioning pipeline, together with theorems settling the specification
claims about them.

Strings are modelled by Lean `String` (a wrapper around `List Char`);
JavaScript regular-expression operations are translated into explicit
character-list functions.  Filesystem state is an explicit tree value;
every effectful operation of the source is either modelled as a pure
state transformer on that tree or recorded as an event in a trace.
-/

/-- Separator characters of the path-splitting regex `[\/\\]+` used by
`diffPaths`, `trimPath` and `normalizePath`. -/
def isSep (c : Char) : Bool := c == '/' || c == '\\'

/-- Worker for `splitRunsBy`.  `inSep` records whether the previous
character belonged to a separator run (so that further separators extend
the same run instead of opening empty fields); `cur` is the current field,
reversed. -/
def splitRunsCore (p : Char → Bool) : List Char → Bool → List Char → List (List Char)
  | [], _, cur => [cur.reverse]
  | c :: rest, inSep, cur =>
    if p c then
      if inSep then splitRunsCore p rest true cur
      else cur.reverse :: splitRunsCore p rest true []
    else splitRunsCore p rest false (c :: cur)

/-- Splits a character list into the fields separated by maximal runs of
characters satisfying `p`, keeping the (possibly empty) fields at the two
ends — the behaviour of JavaScript `String.prototype.split` with a
`[...]+` regex, e.g. `"/a/b".split(/[\/\\]+/) = ["", "a", "b"]`. -/
def splitRunsBy (p : Char → Bool) (cs : List Char) : List (List Char) :=
  splitRunsCore p cs false []

/-- `path.split(/[\/\\]+/)` from the source. -/
def splitParts (s : String) : List String :=
  (splitRunsBy isSep s.data).map String.mk

/-- JavaScript `Array.prototype.join(sep)`. -/
def joinWith (sep : String) : List String → String
  | [] => ""
  | [a] => a
  | a :: rest => a ++ sep ++ joinWith sep rest

/-- JavaScript `Array.prototype.join('/')`. -/
def joinSlash (l : List String) : String := joinWith "/" l

/-- The loop of `CYSUtils.diffPaths` (`src/create-yaspp.ts`): walks the
`from` parts by index, pushing `".."` once divergence (or exhaustion of the
`to` parts) is reached, and recording the diverging suffix of the `to`
parts in `rest` at the first divergence. -/
def diffAux (toParts : List String) (toLen : Nat) :
    List String → Nat → String → List String → String × List String
  | [], _, rest, ret => (rest, ret)
  | f :: fs, ind, rest, ret =>
    if 0 < ret.length ∨ toLen ≤ ind then
      diffAux toParts toLen fs (ind + 1) rest (ret ++ [".."])
    else if f ≠ toParts.getD ind "" then
      diffAux toParts toLen fs (ind + 1)
        (joinSlash (toParts.drop (min ind (toLen - 1)))) (ret ++ [".."])
    else
      diffAux toParts toLen fs (ind + 1) rest ret

/-- `CYSUtils.diffPaths` from `src/create-yaspp.ts`: computes a relative
path expressing `toPath` relative to `fromPath`, returning `toPath`
unchanged when the relative form would not be shorter. -/
def diffPaths (fromPath toPath : String) : String :=
  let fromParts := splitParts fromPath
  let toParts := splitParts toPath
  let r := diffAux toParts toParts.length fromParts 0 "" []
  let retParts :=
    if r.1 ≠ "" then r.2 ++ [r.1]
    else if fromParts.length < toParts.length then
      r.2 ++ toParts.drop fromParts.length
    else r.2
  let relPath := joinSlash retParts
  if relPath.length < toPath.length then relPath else toPath

/-- Separators of the language-splitting regex `[,\s]+` in
`CYSUtils.parseLangs`.  (JavaScript `\s` also matches form feed, vertical
tab and Unicode spaces; only comma and the common ASCII whitespace occur
in the claims.) -/
def isLangSep (c : Char) : Bool := c == ',' || c.isWhitespace

/-- The locale-tag regex `^[a-zA-Z]{2,5}(?:[\-_][a-zA-Z]{2,5})?$` of
`CYSUtils.parseLangs`, as a predicate on character lists. -/
def locTest (cs : List Char) : Bool :=
  let a := cs.takeWhile Char.isAlpha
  let r := cs.drop a.length
  decide (2 ≤ a.length) && decide (a.length ≤ 5) &&
    match r with
    | [] => true
    | c :: rest =>
      (c == '-' || c == '_') &&
        (let b := rest.takeWhile Char.isAlpha
         decide (2 ≤ b.length) && decide (b.length ≤ 5) &&
           decide (rest.drop b.length = []))

/-- `CYSUtils.parseLangs`: split on commas/whitespace and keep the
segments matching the locale-tag pattern. -/
def parseLangs (langs : String) : List String :=
  ((splitRunsBy isLangSep langs.data).map String.mk).filter
    (fun s => locTest s.data)

/-- `containsSeg pat l` holds when `pat` occurs as a contiguous segment of
`l` (an unanchored regex-alternative match). -/
def containsSeg (pat : List Char) : List Char → Bool
  | [] => pat.isEmpty
  | c :: rest => pat.isPrefixOf (c :: rest) || containsSeg pat rest

/-- The reply test of `CYSUtils.confirm`: the regex `/^y|yes|ok|true$/i`.
By alternation precedence its alternatives are `^y`, `yes`, `ok` and
`true$`: a reply passes when (case-insensitively) it starts with `y`,
contains `yes`, contains `ok`, or ends with `true`. -/
def confirmReply (reply : String) : Bool :=
  let r := reply.data.map Char.toLower
  ['y'].isPrefixOf r || containsSeg ['y', 'e', 's'] r ||
    containsSeg ['o', 'k'] r || ['t', 'r', 'u', 'e'].isSuffixOf r

/-- The regex `WIN_DEVICE_RE = /^([A-Z]):[\\\/]+/i`: an ASCII letter, a
colon, then a nonempty run of slashes/backslashes, anchored at the start.
Returns the drive letter and the number of characters matched. -/
def winDeviceMatch (cs : List Char) : Option (Char × Nat) :=
  match cs with
  | c :: ':' :: rest =>
    if c.isAlpha then
      let run := rest.takeWhile isSep
      if 0 < run.length then some (c, 2 + run.length) else none
    else none
  | _ => none

/-- `CYSUtils.normalizePath` from the compiled revision: `ret` is
initialized to the empty string, assigned only when the drive regex
matches, and the final statement rewrites every backslash of `ret` to a
forward slash. -/
def normalizePath (path : String) : String :=
  if path = "" then ""
  else
    let ret : List Char :=
      match winDeviceMatch path.data with
      | some (c, k) => '/' :: c.toLower :: '/' :: path.data.drop k
      | none => []
    String.mk (ret.map (fun c => if c = '\\' then '/' else c))

/-- The argument bundle consumed by `getConfiguration` (the `ICYSPArgv`
fields, with JavaScript `undefined` identified with `""`). -/
structure CfgInput where
  repository : String := ""
  path : String := ""
  branch : String := ""
  langs : String := ""
  defaultLocale : String := ""
  contentRoot : String := ""
  contentIndex : String := ""
  localeRoot : String := ""
  styleRoot : String := ""
  styleIndex : String := ""
  assetsRoot : String := ""
  target : String := ""
  clean : Bool := false
deriving DecidableEq

/-- A result value of the source's `IResponse` shape: exactly one of an
error message or a payload. -/
inductive Res (α : Type) where
  | ok (val : α)
  | err (msg : String)
deriving DecidableEq

/-- The repository field of the in-progress options: the repository prompt
runs only when no `path` argument was supplied (`if (!args.path)`), so a
supplied path leaves the initial `""`. -/
def resolvedRepository (args : CfgInput) : String :=
  if args.path ≠ "" then "" else args.repository

/-- The path field of the in-progress options: the path prompt runs only
when the repository field stayed empty (`if (!options.repository)`). -/
def resolvedPath (args : CfgInput) : String :=
  if resolvedRepository args ≠ "" then "" else args.path

/-- The style-index resolution: read only when a style root was given, and
suffixed with `.scss` when it contains no dot. -/
def resolvedStyleIndex (args : CfgInput) : String :=
  if args.styleRoot ≠ "" then
    if args.styleIndex ≠ "" ∧ ¬ args.styleIndex.data.contains '.' then
      args.styleIndex ++ ".scss"
    else args.styleIndex
  else ""

/-- The langs field: prompt default is `args.langs || "en"`. -/
def resolvedLangs (args : CfgInput) : String :=
  if args.langs = "" then "en" else args.langs

/-- The default-locale field: the prompt default is
`options.defaultLocale || langs[0]`, and `options.defaultLocale` — a field
of the in-progress options object — is never assigned before this point,
so the default is always the head of the just-parsed language list (and
the caller-supplied `args.defaultLocale` is never consulted). -/
def resolvedDefaultLocale (args : CfgInput) : String :=
  (parseLangs (resolvedLangs args)).getD 0 ""

/-- The branch field: read only when a repository was resolved. -/
def resolvedBranch (args : CfgInput) : String :=
  if resolvedRepository args ≠ "" then args.branch else ""

/-- The validation-error accumulator of one `getConfiguration` pass, in
push order.  `isFolderArg p` answers the source's
`utils.isFolder(fsPath.resolve(PROJECT_ROOT, p))` query. -/
def configErrors (args : CfgInput) (isFolderArg : String → Bool) : List String :=
  (if resolvedRepository args ≠ "" ∧ resolvedPath args ≠ "" then
    ["Can't specify both path and repository"] else []) ++
  (if resolvedPath args ≠ "" ∧ ¬ isFolderArg (resolvedPath args) then
    ["Content path " ++ resolvedPath args ++ " not found"] else []) ++
  (if args.contentRoot = "" then ["Content root cannot be empty"] else []) ++
  (if args.contentIndex = "" then ["Content index cannot be empty"] else []) ++
  (if args.localeRoot = "" then ["Locale root cannot be empty"] else []) ++
  (if args.styleRoot ≠ "" ∧ resolvedStyleIndex args = "" then
    ["You specified styles root " ++ args.styleRoot ++
      ", so style index (custom scss file) cannot be empty"] else []) ++
  (if (parseLangs (resolvedLangs args)).length = 0 then
    ["No legal language specified"] else []) ++
  (if resolvedDefaultLocale args = "" ∨
      ¬ (parseLangs (resolvedLangs args)).contains (resolvedDefaultLocale args) then
    ["Invalid default locale " ++ resolvedDefaultLocale args] else []) ++
  (if resolvedRepository args = "" ∧ args.branch ≠ "" then
    ["You specified branch " ++ args.branch ++ " without a site repository"] else [])

/-- The completed options object of one auto-reply `getConfiguration`
pass. -/
def resolvedOptions (args : CfgInput) : CfgInput :=
  { repository := resolvedRepository args
    path := resolvedPath args
    branch := resolvedBranch args
    langs := resolvedLangs args
    defaultLocale := resolvedDefaultLocale args
    contentRoot := args.contentRoot
    contentIndex := args.contentIndex
    localeRoot := args.localeRoot
    styleRoot := args.styleRoot
    styleIndex := resolvedStyleIndex args
    assetsRoot := args.assetsRoot
    target := args.target
    clean := args.clean }

/-- One auto-reply pass of `getConfiguration` (`src/create-yaspp.ts`):
collect every field from its supplied/default value, accumulate all
validation errors, and return either the joined errors or the completed
options.  (In auto-reply mode the edit/restart confirmation is skipped.) -/
def getConfigurationAuto (args : CfgInput) (isFolderArg : String → Bool) :
    Res CfgInput :=
  if configErrors args isFolderArg ≠ [] then
    Res.err (joinWith "\n" (configErrors args isFolderArg))
  else Res.ok (resolvedOptions args)

/-! ## The provisioning pipeline (`main`, auto-reply mode)

Every filesystem mutation performed by a pipeline stage is recorded as an
event; external effects (tool probes, clone/copy/install outcomes, the
saved-configuration file, directory emptiness) are supplied by a `World`
of oracles. -/

/-- The filesystem mutations the pipeline can perform, in the target
directory or inside it. -/
inductive Event where
  | mkdirTarget
  | removeTargetContents
  | removeCloneDest
  | copySite
  | cloneSite
  | cloneYaspp
  | writeYasppConfig
  | writeSavedConfig
  | writeGitignore
  | writePackageJson
  | runInstall
  | runInit
deriving DecidableEq

/-- The command-line flag bundle of `main` (`ICYSPArgv`): the pipeline
flags plus the configuration fields. -/
structure Argv where
  dryrun : Bool := false
  help : Bool := false
  version : Bool := false
  autoReply : Bool := false
  refresh : Bool := false
  content : Bool := true
  clean : Bool := false
  config : String := ""
  cfg : CfgInput := {}
deriving DecidableEq

/-- Oracles describing the environment of one run: tool availability,
the saved configuration file, filesystem queries and the outcomes of the
effectful stages. -/
structure World where
  toolGit : Bool
  toolYarn : Bool
  toolNpm : Bool
  toolNpx : Bool
  savedConfig : Option CfgInput
  isFolderArg : String → Bool
  targetMkdirOk : Bool
  targetEmpty : Res Bool
  removeTargetOk : Bool
  copyErr : String
  cloneErr : String
  yasppCloneErr : String
  writeYasppOk : Bool
  installOk : Bool
  initOk : Bool
  gitignoreExists : Bool
  packageJsonExists : Bool
  gitignoreTmpl : Bool
  packageTmpl : Bool

/-- The outcome of a run: the error string returned by `main` (mapped by
`exit` to the process exit code) and the chronological mutation trace. -/
structure RunResult where
  error : String
  events : List Event
deriving DecidableEq

/-- `exit(err)`: `process.exit(err ? 1 : 0)`. -/
def exitCodeOf (err : String) : Nat := if err ≠ "" then 1 else 0

/-- `fsPath.resolve(base, sub)` for a relative `sub` against an absolute
`base` (the only shape the modelled pipeline produces). -/
def pathResolve (base sub : String) : String := base ++ "/" ++ sub

/-- `adaptOptionsToPath`: when content was staged at `path`, prefix every
configured root with the relative delta from the target to `path`. -/
def adaptOptionsToPath (options : CfgInput) (path : String) : CfgInput :=
  if path = "" then options
  else
    let root := diffPaths options.target path
    if root = "" then options
    else
      let addRoot := fun (p : String) => if p ≠ "" then root ++ "/" ++ p else p
      { options with
        contentRoot := addRoot options.contentRoot
        styleRoot := addRoot options.styleRoot
        assetsRoot := addRoot options.assetsRoot
        localeRoot := addRoot options.localeRoot }

/-- `verifyTarget` (`src/create-yaspp.ts`): ensure the target folder
exists, then require it empty, cleanable (with `--clean`), or fail.  The
interactive delete-confirmation branch is unreachable in auto-reply mode,
where a non-empty target is rejected outright. -/
def verifyTargetModel (args : Argv) (opts : CfgInput) (w : World) :
    String × List Event :=
  if ¬ args.dryrun ∧ ¬ w.targetMkdirOk then
    ("Failed to find or create target folder " ++ opts.target, [Event.mkdirTarget])
  else
    let ev0 : List Event := if args.dryrun then [] else [Event.mkdirTarget]
    match w.targetEmpty with
    | Res.err e => (e, ev0)
    | Res.ok isEmpty =>
      if isEmpty then ("", ev0)
      else
        let notEmpty := "Target folder " ++ opts.target ++ " not empty"
        if args.dryrun then ((if args.clean then "" else notEmpty), ev0)
        else if args.clean then
          ((if w.removeTargetOk then "" else notEmpty),
            ev0 ++ [Event.removeTargetContents])
        else (notEmpty, ev0)

/-- `copySiteContent`: copy the local folder, clone the repository, or do
nothing, then rewrite the option paths against the staged content
location.  Returns the adapted options or the stage error, plus events. -/
def copySiteContentModel (opts : CfgInput) (dry : Bool) (w : World) :
    Res CfgInput × List Event :=
  if opts.path ≠ "" then
    if dry then (Res.ok (adaptOptionsToPath opts ""), [])
    else if w.copyErr ≠ "" then (Res.err w.copyErr, [Event.copySite])
    else (Res.ok (adaptOptionsToPath opts (pathResolve opts.target "site")),
      [Event.copySite])
  else if opts.repository ≠ "" then
    if dry then (Res.ok (adaptOptionsToPath opts (pathResolve opts.target "site")), [])
    else if w.cloneErr ≠ "" then
      (Res.err w.cloneErr, [Event.removeCloneDest, Event.cloneSite])
    else (Res.ok (adaptOptionsToPath opts (pathResolve opts.target "site")),
      [Event.removeCloneDest, Event.cloneSite])
  else (Res.ok (adaptOptionsToPath opts ""), [])

/-- `finalizeProject`: run the package-manager install and the init
script; a non-zero status aborts the stage with an error message.  In dry
mode `captureProcessOutput` short-circuits to status 0. -/
def finalizeProjectModel (dry : Bool) (w : World) : String × List Event :=
  if ¬ (w.toolYarn ∨ w.toolNpm) then ("neither yarn nor npm available", [])
  else if dry then ("", [])
  else if ¬ w.installOk then ("Failed to run yarn/npm", [Event.runInstall])
  else if ¬ w.initOk then
    ("Failedto run init-yaspp", [Event.runInstall, Event.runInit])
  else ("", [Event.runInstall, Event.runInit])

/-- `generateFiles`: persist the side-car options snapshot and copy the
missing scaffold templates; always returns success (failures are only
logged). -/
def generateFilesModel (dry : Bool) (w : World) : String × List Event :=
  let ev0 : List Event := if dry then [] else [Event.writeSavedConfig]
  let ev1 := ev0 ++
    (if ¬ w.gitignoreExists ∧ w.gitignoreTmpl ∧ ¬ dry then [Event.writeGitignore] else [])
  let ev2 := ev1 ++
    (if ¬ w.packageJsonExists ∧ w.packageTmpl ∧ ¬ dry then [Event.writePackageJson] else [])
  ("", ev2)

/-- The pipeline of `main` (`src/create-yaspp.ts`) after the saved
configuration `cfg` has been loaded: configuration resolution, target
verification, content acquisition, yaspp clone, descriptor generation,
finalization (whose failure is only logged) and scaffold generation. -/
def mainPipeline (args : Argv) (cfg : CfgInput) (w : World) : RunResult :=
  let dry := args.dryrun
  let noContent := !args.content
  match getConfigurationAuto cfg w.isFolderArg with
  | Res.err e => { error := e, events := [] }
  | Res.ok opts =>
    let vt := verifyTargetModel args opts w
    if vt.1 ≠ "" then { error := vt.1, events := vt.2 }
    else
      let site := copySiteContentModel opts (dry || noContent) w
      match site.1 with
      | Res.err e => { error := e, events := vt.2 ++ site.2 }
      | Res.ok finalOptions =>
        if args.refresh then { error := "", events := vt.2 ++ site.2 }
        else
          let evC := vt.2 ++ site.2 ++
            (if dry || noContent then [] else [Event.cloneYaspp])
          if (dry || noContent) = false ∧ w.yasppCloneErr ≠ "" then
            { error := "Clone error: " ++ w.yasppCloneErr, events := evC }
          else
            let evG := evC ++ (if dry then [] else [Event.writeYasppConfig])
            if dry = false ∧ w.writeYasppOk = false then
              { error := "Error generating yaspp.config.json", events := evG }
            else
              have := finalOptions
              let fin := finalizeProjectModel dry w
              let gen := generateFilesModel dry w
              { error := gen.1, events := evG ++ fin.2 ++ gen.2 }

/-- `main` (`src/create-yaspp.ts`): after help/version handling and the
tool probe, a run with `--auto`, `--refresh` or `--config` loads the saved
configuration and feeds it (not the command line) to the configuration
pass; runs without any of these flags are interactive and outside this
model. -/
def mainAuto (args : Argv) (w : World) : RunResult :=
  if args.help ∨ args.version then { error := "", events := [] }
  else if ¬ (w.toolGit ∧ w.toolYarn) then
    { error := "Create-yaspp requires git and yarn to run properly", events := [] }
  else if args.config ≠ "" ∨ args.autoReply ∨ args.refresh then
    match w.savedConfig with
    | none => { error := "Config file not found or invalid", events := [] }
    | some cfg => mainPipeline args cfg w
  else { error := "[interactive run: outside this model]", events := [] }

/-- Removal/deletion events: the only destructive mutations the pipeline
can perform. -/
def removalEvent : Event → Bool
  | Event.removeTargetContents => true
  | Event.removeCloneDest => true
  | _ => false

/-- A sample complete configuration with no content source. -/
def cfgSample : CfgInput :=
  { langs := "en de", defaultLocale := "fr", contentRoot := "content",
    contentIndex := "ix", localeRoot := "locales", target := "/proj" }

/-- The options produced by an auto-reply pass over `cfgSample`. -/
def cfgSampleOpts : CfgInput :=
  { langs := "en de", defaultLocale := "en", contentRoot := "content",
    contentIndex := "ix", localeRoot := "locales", target := "/proj" }

/-- A configuration supplying both a repository URL and a local path. -/
def cfgBoth : CfgInput :=
  { repository := "git@github.com:imdfl/site.git", path := "content",
    langs := "en", contentRoot := "content", contentIndex := "ix",
    localeRoot := "locales", target := "/proj" }

/-- The options an auto-reply pass produces from `cfgBoth`: the repository
is silently dropped and the local path wins. -/
def cfgBothOpts : CfgInput :=
  { path := "content", langs := "en", defaultLocale := "en",
    contentRoot := "content", contentIndex := "ix",
    localeRoot := "locales", target := "/proj" }

/-- A filesystem oracle in which only `"content"` is an existing folder. -/
def fsContentOnly : String → Bool := fun p => p == "content"

/-- A fully healthy environment whose saved configuration is `cfgBoth`. -/
def worldBoth : World :=
  { toolGit := true, toolYarn := true, toolNpm := true, toolNpx := true,
    savedConfig := some cfgBoth, isFolderArg := fsContentOnly,
    targetMkdirOk := true, targetEmpty := Res.ok true, removeTargetOk := true,
    copyErr := "", cloneErr := "", yasppCloneErr := "", writeYasppOk := true,
    installOk := true, initOk := true, gitignoreExists := true,
    packageJsonExists := true, gitignoreTmpl := true, packageTmpl := true }

/-- A plain `--auto` invocation. -/
def argvAuto : Argv := { autoReply := true }

/-- A configuration with no content source but a non-existent `--path`. -/
def cfgGhost : CfgInput :=
  { path := "ghost", langs := "en", contentRoot := "content",
    contentIndex := "ix", localeRoot := "locales", target := "/proj" }

/-- A healthy environment whose saved configuration names a non-existent
content path. -/
def worldGhost : World :=
  { worldBoth with savedConfig := some cfgGhost, isFolderArg := fun _ => false }

/-- A healthy environment (saved configuration `cfgSample`) in which the
dependency install exits non-zero. -/
def worldFinFail : World :=
  { worldBoth with
    savedConfig := some cfgSample
    isFolderArg := (fun _ => false)
    installOk := false }

inductive FsNode where
  | file (content : String)
  | dir (children : List (String × FsNode))

/-- First child with the given name. -/
def findChild (cs : List (String × FsNode)) (s : String) : Option FsNode :=
  match cs.find? (fun c => c.1 == s) with
  | some c => some c.2
  | none => none

/-- The node at a path, if any. -/
def lookupAt : FsNode → List String → Option FsNode
  | n, [] => some n
  | FsNode.file _, _ :: _ => none
  | FsNode.dir cs, s :: rest =>
    match findChild cs s with
    | some m => lookupAt m rest
    | none => none

/-- `utils.getFileType`: `"folder"`, `"file"`, or `""` when absent. -/
def getFileTypeAt (fs : FsNode) (p : List String) : String :=
  match lookupAt fs p with
  | some (FsNode.dir _) => "folder"
  | some (FsNode.file _) => "file"
  | none => ""

/-- `utils.isFolder`. -/
def isFolderAt (fs : FsNode) (p : List String) : Bool :=
  getFileTypeAt fs p == "folder"

/-- `fs.readdir(..., { withFileTypes: true })`: the children of the
directory at `p` (empty for a missing or non-directory path, which the
callers below guard against). -/
def readdir (fs : FsNode) (p : List String) : List (String × FsNode) :=
  match lookupAt fs p with
  | some (FsNode.dir cs) => cs
  | _ => []

/-- `CYSUtils.isEmpty` from `src/create-yaspp.ts` (identical in the
compiled revision): a missing folder is empty unless `mustExist`;
otherwise the folder's entries are scanned, and the loop body ends in a
bare block `{ return successResult(false); }` that runs for every
subdirectory entry regardless of the recursive result.  The `fuel`
argument bounds the recursion depth of the embedding; every theorem below
supplies enough of it. -/
def isEmptyModel : Nat → FsNode → List String → Bool → Res Bool
  | 0, fs, folder, mustExist =>
    if ¬ isFolderAt fs folder then
      if mustExist then Res.err "Folder $" else Res.ok true
    else Res.err "recursion budget exhausted"
  | Nat.succ fuel, fs, folder, mustExist =>
    if ¬ isFolderAt fs folder then
      if mustExist then Res.err "Folder $" else Res.ok true
    else
      ((readdir fs folder).foldl
        (fun acc c =>
          match acc with
          | some r => some r
          | none =>
            if c.1 = "." ∨ c.1 = ".." then none
            else
              match c.2 with
              | FsNode.dir _ =>
                match isEmptyModel fuel fs (folder ++ [c.1]) mustExist with
                | Res.err e => some (Res.err e)
                | Res.ok false => some (Res.ok false)
                | Res.ok true => some (Res.ok false)
              | FsNode.file _ => some (Res.ok false))
        none).getD (Res.ok true)

/-- A filesystem whose `target` folder contains exactly one empty
subfolder. -/
def fsEmptySub : FsNode :=
  FsNode.dir [("target", FsNode.dir [("sub", FsNode.dir [])])]

/-- A well-formed path segment at the splitting level: nonempty, with no
slash or backslash characters. -/
def segOk (s : String) : Bool :=
  !s.data.isEmpty && s.data.all (fun c => !isSep c)

/-- A segment of a resolved absolute directory path: additionally neither
`"."` nor `".."` (the source performs no normalization; its spec requires
callers to supply resolved absolute paths). -/
def validSeg (s : String) : Bool :=
  segOk s && s != "." && s != ".."

/-- Every segment is a resolved-path segment. -/
def validSegs (l : List String) : Bool := l.all validSeg

/-- The canonical absolute POSIX form of a nonempty segment list:
`/seg1/seg2/...`. -/
def mkPath (segs : List String) : String := "/" ++ joinSlash segs

/-- Length of the longest common prefix of two segment lists. -/
def commonPrefixLen : List String → List String → Nat
  | a :: as, b :: bs => if a = b then commonPrefixLen as bs + 1 else 0
  | _, _ => 0

/-- Modelled from the spec: resolution of a relative path against an
absolute base directory (the semantics of Node's `path.resolve(base, rel)`
for the shapes produced by `diffPaths`): `".."` pops a segment, `"."` and
empty segments are skipped, other segments descend. -/
def resolveSegs : List String → List String → List String
  | acc, [] => acc
  | acc, s :: rest =>
    if s = ".." then resolveSegs acc.dropLast rest
    else if s = "" ∨ s = "." then resolveSegs acc rest
    else resolveSegs (acc ++ [s]) rest

/-- Modelled from the spec: `resolve(A, rel)` — an absolute `rel` wins
outright, a relative one is applied to the base's segments. -/
def resolvePath (base rel : String) : String :=
  if rel.data.head? = some '/' then rel
  else
    mkPath (resolveSegs ((splitParts base).filter (fun s => s ≠ ""))
      (splitParts rel))

/-- The relative form described by the claim: one `".."` per segment of
`A` beyond the common prefix, followed by the diverging suffix of `B`. -/
def relForm (sa sb : List String) : String :=
  joinSlash (List.replicate (sa.length - commonPrefixLen sa sb) ".." ++
    sb.drop (commonPrefixLen sa sb))

/-- Replace the first child with the given name, keeping its position. -/
def replaceChild : List (String × FsNode) → String → FsNode → List (String × FsNode)
  | [], _, _ => []
  | c :: rest, s, m => if c.1 == s then (c.1, m) :: rest else c :: replaceChild rest s m

/-- Write `node` at `path`, replacing any existing subtree in place,
creating missing directories along the way (new entries are appended at
the end of their parent's child list, as the copy loop does), and leaving
the tree unchanged where a file blocks the path. -/
def setNodeAt : FsNode → List String → FsNode → FsNode
  | _, [], node => node
  | FsNode.file c, _ :: _, _ => FsNode.file c
  | FsNode.dir cs, s :: rest, node =>
    match findChild cs s with
    | some m => FsNode.dir (replaceChild cs s (setNodeAt m rest node))
    | none => FsNode.dir (cs ++ [(s, setNodeAt (FsNode.dir []) rest node)])

/-- `fs.mkdir(path, { recursive: true })`: create the missing directories
along `path`; `none` when a file blocks the way. -/
def mkdirCreate : FsNode → List String → Option FsNode
  | FsNode.dir cs, [] => some (FsNode.dir cs)
  | FsNode.file _, [] => none
  | FsNode.file _, _ :: _ => none
  | FsNode.dir cs, s :: rest =>
    match findChild cs s with
    | some m =>
      match mkdirCreate m rest with
      | some m2 => some (FsNode.dir (replaceChild cs s m2))
      | none => none
    | none =>
      match mkdirCreate (FsNode.dir []) rest with
      | some m2 => some (FsNode.dir (cs ++ [(s, m2)]))
      | none => none

/-- `CYSUtils.mkdir`: no-op on an existing folder, an error when a
non-folder entry occupies the path, otherwise recursive creation. -/
def mkdirRec (fs : FsNode) (path : List String) : FsNode × String :=
  match getFileTypeAt fs path with
  | "folder" => (fs, "")
  | "" =>
    match mkdirCreate fs path with
    | some fs2 => (fs2, "")
    | none => (fs, "mkdir " ++ mkPath path ++ " failed")
  | _ => (fs, "file already exists at " ++ mkPath path)

/-- Modelled from the spec: `removeFolder({path, removeRoot: false})`
deletes the folder's contents (`rimraf` of `path/*` with glob), leaving
the folder itself in place; a non-folder path is left untouched. -/
def removeContents (fs : FsNode) (path : List String) : FsNode :=
  if isFolderAt fs path then setNodeAt fs path (FsNode.dir []) else fs

/-- `fs.copyFile(src, dst)` for an existing source file. -/
def copyFileNode (fs : FsNode) (src dst : List String) : FsNode :=
  match lookupAt fs src with
  | some (FsNode.file c) => setNodeAt fs dst (FsNode.file c)
  | _ => fs

/-- `targetPath.indexOf(srcPath) === 0`: the circular-copy guard compares
the two absolute path strings character-wise. -/
def strPrefixB (a b : String) : Bool := a.data.isPrefixOf b.data

/-- Child names are pairwise distinct (true of any real directory
listing). -/
def namesNodup : List (String × FsNode) → Bool
  | [] => true
  | c :: rest => !(rest.any (fun d => d.1 == c.1)) && namesNodup rest

/-- Well-formedness of a tree up to depth `fuel`: distinct child names at
every level; `false` when the tree is deeper than `fuel` (so this predicate
also certifies that `fuel` covers the tree's depth). -/
def wfFuel : Nat → FsNode → Bool
  | _, FsNode.file _ => true
  | 0, FsNode.dir _ => false
  | Nat.succ fuel, FsNode.dir cs => namesNodup cs && cs.all (fun c => wfFuel fuel c.2)

/-- No file occupies the path or any of its proper prefixes (the final
node may be absent or a folder, every existing intermediate node is a
folder): the condition under which recursive `mkdir` succeeds. -/
def pathClear : FsNode → List String → Bool
  | FsNode.dir _, [] => true
  | FsNode.file _, [] => false
  | FsNode.file _, _ :: _ => false
  | FsNode.dir cs, s :: rest =>
    match findChild cs s with
    | some m => pathClear m rest
    | none => true

/-- One iteration of the copy loop of `copyFolderContent`: directories
recurse through `rec` (cleaning the current destination level on a child
error), files are copied byte-for-byte; after a failure the remaining
entries are skipped (the source returns at the first error). -/
def copyStep (rec : FsNode → List String → List String → FsNode × String)
    (srcPath dstPath : List String) (acc : FsNode × String)
    (c : String × FsNode) : FsNode × String :=
  if acc.2 ≠ "" then acc
  else
    match c.2 with
    | FsNode.dir _ =>
      match rec acc.1 (srcPath ++ [c.1]) (dstPath ++ [c.1]) with
      | (fsr, e) => if e ≠ "" then (removeContents fsr dstPath, e) else (fsr, "")
    | FsNode.file _ => (copyFileNode acc.1 (srcPath ++ [c.1]) (dstPath ++ [c.1]), "")

/-- `CYSUtils.copyFolderContent` (`src/create-yaspp.ts`): require an
existing source folder, create the destination folder (an error when a
non-folder occupies it), reject when the destination string starts with
the source string, clear the destination's contents, then walk the source
entries, recursing into directories and copying files.  `fuel` bounds the
recursion depth of the embedding. -/
def copyFolderContent : Nat → FsNode → List String → List String → FsNode × String
  | 0, fs, _, _ => (fs, "copy recursion budget exhausted")
  | Nat.succ fuel, fs, srcPath, dstPath =>
    if ¬ isFolderAt fs srcPath then
      (fs, "Folder " ++ mkPath srcPath ++ " not found")
    else
      match mkdirRec fs dstPath with
      | (fs1, err) =>
        if err ≠ "" then (fs1, err)
        else if strPrefixB (mkPath srcPath) (mkPath dstPath) then
          (fs1, "Circular copy: " ++ mkPath srcPath ++ " into " ++ mkPath dstPath)
        else
          let fs2 := removeContents fs1 dstPath
          (readdir fs2 srcPath).foldl
            (copyStep (copyFolderContent fuel) srcPath dstPath) (fs2, "")

/-- A source folder next to a destination occupied by a plain file. -/
def fsFileAtDst : FsNode :=
  FsNode.dir [("src", FsNode.dir [("a.txt", FsNode.file "hello")]),
    ("dst", FsNode.file "junk")]

def csC3 : List (String × FsNode) :=
  [("a.txt", FsNode.file "hello"),
   ("sub", FsNode.dir [("b.txt", FsNode.file "x")])]

def fsC3 : FsNode :=
  FsNode.dir [("src", FsNode.dir csC3),
    ("dst", FsNode.dir [("junk", FsNode.file "old"),
      ("a.txt", FsNode.file "stale")])]

theorem str_append_ne_empty (a b : String) (ha : a ≠ "") : a ++ b ≠ "" := by
  intro h
  apply ha
  apply String.ext
  have hd := congrArg String.data h
  rw [String.data_append a b] at hd
  have h0 : a.data = [] := (List.append_eq_nil.mp hd).1
  simpa using h0

theorem joinWith_ne_empty (sep : String) (l : List String)
    (hl : l ≠ []) (he : ∀ e ∈ l, e ≠ "") : joinWith sep l ≠ "" := by
  match l with
  | [] => exact absurd rfl hl
  | [a] => simpa [joinWith] using he a (by simp)
  | a :: b :: t =>
    have ha : a ≠ "" := he a (by simp)
    show a ++ sep ++ joinWith sep (b :: t) ≠ ""
    exact str_append_ne_empty _ _ (str_append_ne_empty _ _ ha)

theorem configErrors_mem_ne_empty (args : CfgInput) (fs : String → Bool) :
    ∀ e ∈ configErrors args fs, e ≠ "" := by
  intro e he hcon
  subst hcon
  simp only [configErrors, List.mem_append] at he
  rcases he with ((((((((h | h) | h) | h) | h) | h) | h) | h) | h) <;>
    (split at h <;> simp_all) <;>
    first
      | exact str_append_ne_empty _ _ (str_append_ne_empty _ _ (by decide)) h.symm
      | exact str_append_ne_empty _ _ (by decide) h.symm

/-- Claim C10: the configuration resolver never uses the caller-supplied
default-locale value as the default for the default-locale field: the
auto-reply result is unchanged under any `defaultLocale` argument, and a
successful pass always resolves the default locale to the first entry of
the just-parsed language list (the source reads the not-yet-assigned
in-progress `options.defaultLocale` instead of the supplied argument). -/
theorem claimC10_defaultLocale_ignored (args : CfgInput) (x : String)
    (fs : String → Bool) :
    getConfigurationAuto { args with defaultLocale := x } fs =
      getConfigurationAuto args fs ∧
    ∀ opts, getConfigurationAuto args fs = Res.ok opts →
      opts.defaultLocale = (parseLangs (resolvedLangs args)).getD 0 "" := by
  constructor
  · rfl
  · intro opts h
    unfold getConfigurationAuto at h
    split at h
    · cases h
    · cases h
      rfl

/-- Witness for claim C10 at a concrete configuration carrying the unused
`--default-locale fr` argument. -/
theorem claimC10_defaultLocale_ignored_witness :
    getConfigurationAuto { cfgSample with defaultLocale := "zz" } (fun _ => false) =
      getConfigurationAuto cfgSample (fun _ => false) ∧
    cfgSampleOpts.defaultLocale = (parseLangs (resolvedLangs cfgSample)).getD 0 "" :=
  ⟨(claimC10_defaultLocale_ignored cfgSample "zz" (fun _ => false)).1,
   (claimC10_defaultLocale_ignored cfgSample "zz" (fun _ => false)).2
     cfgSampleOpts (by decide)⟩

/-- Claim C2 (the code contradicts it): when both a repository URL and a
local path are supplied, resolution does not fail — the repository prompt
is skipped because a path argument is present, so the repository is
silently dropped, the pass succeeds, and the pipeline attempts the copy.
The "Can't specify both" validation is unreachable: the resolver can
never have both fields set at once. -/
theorem claimC2_bothSources_not_rejected :
    getConfigurationAuto cfgBoth fsContentOnly = Res.ok cfgBothOpts ∧
    cfgBothOpts.repository = "" ∧ cfgBothOpts.path = "content" ∧
    (mainAuto argvAuto worldBoth).error = "" ∧
    Event.copySite ∈ (mainAuto argvAuto worldBoth).events ∧
    ∀ a : CfgInput, resolvedRepository a = "" ∨ resolvedPath a = "" := by
  refine ⟨by decide, by decide, by decide, by decide, by decide, ?_⟩
  intro a
  by_cases h : resolvedRepository a = ""
  · exact Or.inl h
  · exact Or.inr (by simp [resolvedPath, h])

/-- Claim C6: with a `--path` content source that does not name an
existing folder, the pipeline fails during configuration validation before
any filesystem mutation in the target: the returned error is nonempty,
the process exit code is 1, and the mutation trace is empty (no project
descriptor written, no content copied or cloned). -/
theorem claimC6_invalidPath_failsBeforeMutation (args : Argv) (w : World)
    (cfg : CfgInput)
    (hh : args.help = false) (hv : args.version = false)
    (ha : args.autoReply = true)
    (hg : w.toolGit = true) (hy : w.toolYarn = true)
    (hsc : w.savedConfig = some cfg)
    (hp : cfg.path ≠ "") (hf : w.isFolderArg cfg.path = false) :
    (mainAuto args w).error ≠ "" ∧
    exitCodeOf (mainAuto args w).error = 1 ∧
    (mainAuto args w).events = [] := by
  have hrp : resolvedPath cfg = cfg.path := by
    simp [resolvedPath, resolvedRepository, hp]
  have hne : configErrors cfg w.isFolderArg ≠ [] := by
    simp [configErrors, List.append_eq_nil, hrp, hp, hf]
  have herr : getConfigurationAuto cfg w.isFolderArg =
      Res.err (joinWith "\n" (configErrors cfg w.isFolderArg)) := by
    simp [getConfigurationAuto, hne]
  have hmsg : joinWith "\n" (configErrors cfg w.isFolderArg) ≠ "" :=
    joinWith_ne_empty _ _ hne (configErrors_mem_ne_empty cfg w.isFolderArg)
  have hmain : mainAuto args w =
      { error := joinWith "\n" (configErrors cfg w.isFolderArg), events := [] } := by
    simp [mainAuto, hh, hv, ha, hg, hy, hsc, mainPipeline, herr]
  rw [hmain]
  exact ⟨hmsg, by simp [exitCodeOf, hmsg], rfl⟩

/-- Witness for claim C6: a concrete `--auto` run whose configured path
`"ghost"` exists nowhere. -/
theorem claimC6_invalidPath_failsBeforeMutation_witness :
    (mainAuto argvAuto worldGhost).error ≠ "" ∧
    exitCodeOf (mainAuto argvAuto worldGhost).error = 1 ∧
    (mainAuto argvAuto worldGhost).events = [] :=
  claimC6_invalidPath_failsBeforeMutation argvAuto worldGhost cfgGhost
    rfl rfl rfl rfl rfl rfl (by decide) rfl

theorem finalizeFails_of_not_ok (w : World) (hy : w.toolYarn = true)
    (hfin : ¬ (w.installOk = true ∧ w.initOk = true)) :
    (finalizeProjectModel false w).1 ≠ "" ∧
    ((finalizeProjectModel false w).2).all (fun e => !removalEvent e) = true := by
  cases hi : w.installOk with
  | false => simp [finalizeProjectModel, hy, hi, removalEvent]
  | true =>
    cases hn : w.initOk with
    | false => simp [finalizeProjectModel, hy, hi, hn, removalEvent]
    | true => exact absurd ⟨hi, hn⟩ hfin

theorem generateFiles_no_removal (w : World) :
    (generateFilesModel false w).1 = "" ∧
    ((generateFilesModel false w).2).all (fun e => !removalEvent e) = true := by
  refine ⟨rfl, ?_⟩
  by_cases h1 : w.gitignoreExists <;> by_cases h2 : w.gitignoreTmpl <;>
    by_cases h3 : w.packageJsonExists <;> by_cases h4 : w.packageTmpl <;>
    simp [generateFilesModel, h1, h2, h3, h4, removalEvent]

/-- Claim C7: once the pipeline has staged content and written the project
configuration, a failing finalize stage (install or init script with a
non-zero status) is only reported: the run still returns success (exit
code 0), and no removal or deletion event follows the configuration
write. -/
theorem claimC7_finalizeFailure_degradesToWarning (args : Argv) (w : World)
    (cfg : CfgInput)
    (hh : args.help = false) (hv : args.version = false) (ha : args.autoReply = true)
    (hr : args.refresh = false) (hd : args.dryrun = false) (hct : args.content = true)
    (hg : w.toolGit = true) (hy : w.toolYarn = true) (hsc : w.savedConfig = some cfg)
    (hce : configErrors cfg w.isFolderArg = [])
    (hmk : w.targetMkdirOk = true) (hte : w.targetEmpty = Res.ok true)
    (hcp : w.copyErr = "") (hcl : w.cloneErr = "") (hyc : w.yasppCloneErr = "")
    (hwr : w.writeYasppOk = true)
    (hfin : ¬ (w.installOk = true ∧ w.initOk = true)) :
    (mainAuto args w).error = "" ∧
    exitCodeOf (mainAuto args w).error = 0 ∧
    (finalizeProjectModel args.dryrun w).1 ≠ "" ∧
    ∃ pre post, (mainAuto args w).events = pre ++ Event.writeYasppConfig :: post ∧
      post.all (fun e => !removalEvent e) = true := by
  have hok : getConfigurationAuto cfg w.isFolderArg = Res.ok (resolvedOptions cfg) := by
    simp [getConfigurationAuto, hce]
  have hvt : verifyTargetModel args (resolvedOptions cfg) w = ("", [Event.mkdirTarget]) := by
    simp [verifyTargetModel, hd, hmk, hte]
  have hfinp := finalizeFails_of_not_ok w hy hfin
  have hgenp := generateFiles_no_removal w
  have hpost : ((finalizeProjectModel false w).2 ++ (generateFilesModel false w).2).all
      (fun e => !removalEvent e) = true := by
    rw [List.all_append, hfinp.2, hgenp.2]
    rfl
  obtain ⟨fo, ev, hsite⟩ :
      ∃ fo ev, copySiteContentModel (resolvedOptions cfg) false w = (Res.ok fo, ev) := by
    by_cases hp : (resolvedOptions cfg).path ≠ ""
    · exact ⟨adaptOptionsToPath (resolvedOptions cfg)
        (pathResolve (resolvedOptions cfg).target "site"), [Event.copySite],
        by simp [copySiteContentModel, hp, hcp]⟩
    · by_cases hrep : (resolvedOptions cfg).repository ≠ ""
      · exact ⟨adaptOptionsToPath (resolvedOptions cfg)
          (pathResolve (resolvedOptions cfg).target "site"),
          [Event.removeCloneDest, Event.cloneSite],
          by simp [copySiteContentModel, hp, hrep, hcl]⟩
      · exact ⟨adaptOptionsToPath (resolvedOptions cfg) "", [],
          by simp [copySiteContentModel, hp, hrep]⟩
  have hms : mainAuto args w =
      { error := "",
        events := ([Event.mkdirTarget] ++ ev ++ [Event.cloneYaspp, Event.writeYasppConfig]) ++
          ((finalizeProjectModel false w).2 ++ (generateFilesModel false w).2) } := by
    simp [mainAuto, hh, hv, ha, hg, hy, hsc, mainPipeline, hok, hvt, hd, hct, hr,
      hsite, hyc, hwr, generateFilesModel]
  refine ⟨by rw [hms], by rw [hms]; simp [exitCodeOf], by rw [hd]; exact hfinp.1,
    [Event.mkdirTarget] ++ ev ++ [Event.cloneYaspp], _, by rw [hms]; simp, hpost⟩

/-- Witness for claim C7: a concrete run in which the install step fails
after the configuration has been written. -/
theorem claimC7_finalizeFailure_degradesToWarning_witness :
    (mainAuto argvAuto worldFinFail).error = "" ∧
    exitCodeOf (mainAuto argvAuto worldFinFail).error = 0 ∧
    (finalizeProjectModel argvAuto.dryrun worldFinFail).1 ≠ "" ∧
    ∃ pre post,
      (mainAuto argvAuto worldFinFail).events = pre ++ Event.writeYasppConfig :: post ∧
      post.all (fun e => !removalEvent e) = true :=
  claimC7_finalizeFailure_degradesToWarning argvAuto worldFinFail cfgSample
    rfl rfl rfl rfl rfl rfl rfl rfl rfl (by decide) rfl rfl rfl rfl rfl rfl
    (by decide)

/-- Claim C5 (the code contradicts it): `normalizePath` is supposed to
return the empty string exactly for empty input, but the `ret` accumulator
is initialized to `""` and assigned only in the drive-letter branch, so
every input without a drive-letter prefix — e.g. `"a\b"` — maps to `""`
instead of its forward-slash form. -/
theorem claimC5_normalizePath :
    normalizePath "" = "" ∧
    normalizePath "C:\\Users\\x" = "/c/Users/x" ∧
    normalizePath "a\\b" = "" ∧ ("a\\b" : String) ≠ "" ∧
    normalizePath "/usr/lib" = "" ∧ ("/usr/lib" : String) ≠ "" := by
  decide

/-- Claim C8: `parseLangs` splits its input on commas and whitespace and
keeps exactly the segments matching the locale-tag pattern:
`"en, fr-CA  de"` parses to `["en","fr-CA","de"]`, `"e,  123"` parses to
`[]`, and membership in the result is membership among the split segments
together with satisfaction of the locale-tag pattern. -/
theorem claimC8_parseLangs :
    parseLangs "en, fr-CA  de" = ["en", "fr-CA", "de"] ∧
    parseLangs "e,  123" = [] ∧
    ∀ (s x : String),
      x ∈ parseLangs s ↔
        x ∈ (splitRunsBy isLangSep s.data).map String.mk ∧ locTest x.data = true := by
  refine ⟨by decide, by decide, ?_⟩
  intro s x
  simp [parseLangs, List.mem_filter]

theorem containsSeg_infix_iff (pat l : List Char) :
    containsSeg pat l = true ↔ pat <:+: l := by
  induction l with
  | nil =>
    simp [containsSeg, List.isEmpty_iff, List.infix_nil]
  | cons c rest ih =>
    simp only [containsSeg, Bool.or_eq_true, List.isPrefixOf_iff_prefix, ih]
    rw [List.infix_cons_iff]

/-- Counterexample to claim C9 as stated: the reply `"truex"` contains
`"true"` as a substring, yet `confirm` rejects it — the regex anchors the
`true` alternative to the end of the reply, not only the `y` alternative.
-/
theorem claimC9_counterexample :
    containsSeg ['t', 'r', 'u', 'e'] "truex".data = true ∧
    confirmReply "truex" = false := by decide

/-- Claim C9 as amended: a reply is affirmative exactly when
(case-insensitively) it begins with `y`, contains `yes` or `ok` anywhere,
or ends with `true` — the regex anchors both the `y` and the `true`
alternatives; in particular `"nok"` is accepted and `"truex"` is not. -/
theorem claimC9_amended_confirm :
    (∀ r : String, confirmReply r = true ↔
      (['y'] <+: r.data.map Char.toLower ∨
       ['y', 'e', 's'] <:+: r.data.map Char.toLower ∨
       ['o', 'k'] <:+: r.data.map Char.toLower ∨
       ['t', 'r', 'u', 'e'] <:+ r.data.map Char.toLower)) ∧
    confirmReply "nok" = true ∧ confirmReply "xtrue" = true ∧
    confirmReply "Yes" = true ∧ confirmReply "truex" = false ∧
    confirmReply "no" = false := by
  refine ⟨?_, by decide, by decide, by decide, by decide, by decide⟩
  intro r
  simp only [confirmReply, Bool.or_eq_true, List.isPrefixOf_iff_prefix,
    List.isSuffixOf_iff_suffix, containsSeg_infix_iff]
  tauto

/-! ## Filesystem model

A filesystem is a tree of directories (ordered association lists of named
children, as `readdir` would enumerate them) and files with string
contents; symbolic links and other node kinds do not occur in the claims.
Paths are segment lists resolved against the tree root. -/

/-- Claim C4 (the code contradicts its recursive-emptiness part):
a non-existent path is empty when `mustExist = false` and an error when
`mustExist = true` — but a folder whose only entry is an empty subfolder
is reported NON-empty, because the loop body's trailing bare block returns
`successResult(false)` for every subdirectory entry, discarding the
recursive result (which here is `successResult(true)`, as the subfolder
itself is correctly reported empty). -/
theorem claimC4_isEmpty_strayBlock :
    isEmptyModel 5 fsEmptySub ["ghost"] false = Res.ok true ∧
    isEmptyModel 5 fsEmptySub ["ghost"] true = Res.err "Folder $" ∧
    isEmptyModel 5 fsEmptySub ["target", "sub"] false = Res.ok true ∧
    isEmptyModel 5 fsEmptySub ["target"] false = Res.ok false := by
  decide

/-! ## Relative-path computation (`diffPaths`): canonical paths and the
round-trip property -/

theorem strMkData (s : String) : String.mk s.data = s := rfl

theorem splitRunsCore_nosep (p : Char → Bool) :
    ∀ (cs : List Char) (cur : List Char) (inSep : Bool),
      (∀ c ∈ cs, p c = false) →
      splitRunsCore p cs inSep cur = [cur.reverse ++ cs] := by
  intro cs
  induction cs with
  | nil => intro cur inSep _; simp [splitRunsCore]
  | cons c rest ih =>
    intro cur inSep h
    have hc : p c = false := h c (by simp)
    have hrest : ∀ x ∈ rest, p x = false := fun x hx => h x (by simp [hx])
    simp only [splitRunsCore, hc, Bool.false_eq_true, if_false]
    rw [ih (c :: cur) false hrest]
    simp

theorem splitRunsCore_append_sep (p : Char → Bool) (sep : Char)
    (hsep : p sep = true) :
    ∀ (xs : List Char) (cur : List Char) (inSep : Bool) (ys : List Char),
      (∀ c ∈ xs, p c = false) → (xs ≠ [] ∨ inSep = false) →
      splitRunsCore p (xs ++ sep :: ys) inSep cur =
        (cur.reverse ++ xs) :: splitRunsCore p ys true [] := by
  intro xs
  induction xs with
  | nil =>
    intro cur inSep ys _ hcase
    have : inSep = false := by
      rcases hcase with h | h
      · exact absurd rfl h
      · exact h
    subst this
    simp [splitRunsCore, hsep]
  | cons x xs' ih =>
    intro cur inSep ys h _
    have hx : p x = false := h x (by simp)
    have hxs : ∀ c ∈ xs', p c = false := fun c hc => h c (by simp [hc])
    simp only [List.cons_append, splitRunsCore, hx, Bool.false_eq_true, if_false,
      List.append_eq]
    rw [ih (x :: cur) false ys hxs (Or.inr rfl)]
    simp

theorem joinWith_cons₂ (sep a b : String) (t : List String) :
    joinWith sep (a :: b :: t) = a ++ sep ++ joinWith sep (b :: t) := rfl

theorem data_joinSlash_cons₂ (a b : String) (t : List String) :
    (joinSlash (a :: b :: t)).data = a.data ++ '/' :: (joinSlash (b :: t)).data := by
  show (joinWith "/" (a :: b :: t)).data = _
  rw [joinWith_cons₂, String.data_append (a ++ "/") (joinWith "/" (b :: t)),
    String.data_append a "/"]
  simp [joinSlash]

theorem splitRunsCore_joinSlash (segs : List String) (hne : segs ≠ [])
    (hok : ∀ s ∈ segs, segOk s = true) (inSep : Bool) :
    splitRunsCore isSep (joinSlash segs).data inSep [] = segs.map String.data := by
  induction segs generalizing inSep with
  | nil => exact absurd rfl hne
  | cons a rest ih =>
    have ha : segOk a = true := hok a (by simp)
    have hane : a.data ≠ [] := by
      intro h
      simp [segOk, h] at ha
    have hans : ∀ c ∈ a.data, isSep c = false := by
      intro c hc
      have := (Bool.and_eq_true _ _ |>.mp ha).2
      rw [List.all_eq_true] at this
      have := this c hc
      simpa using this
    cases rest with
    | nil =>
      show splitRunsCore isSep a.data inSep [] = [a.data]
      rw [splitRunsCore_nosep isSep a.data [] inSep hans]
      simp
    | cons b t =>
      rw [data_joinSlash_cons₂ a b t,
        splitRunsCore_append_sep isSep '/' rfl a.data [] inSep _ hans (Or.inl hane),
        ih (by simp) (fun s hs => hok s (by simp [hs])) true]
      simp

theorem splitParts_joinSlash (segs : List String) (hne : segs ≠ [])
    (hok : ∀ s ∈ segs, segOk s = true) :
    splitParts (joinSlash segs) = segs := by
  unfold splitParts splitRunsBy
  rw [splitRunsCore_joinSlash segs hne hok false, List.map_map]
  have : String.mk ∘ String.data = id := by
    funext s
    exact strMkData s
  rw [this, List.map_id]

theorem splitParts_mkPath (segs : List String) (hne : segs ≠ [])
    (hok : ∀ s ∈ segs, segOk s = true) :
    splitParts (mkPath segs) = "" :: segs := by
  unfold splitParts splitRunsBy mkPath
  rw [String.data_append "/" (joinSlash segs)]
  have hstep : splitRunsCore isSep (("/" : String).data ++ (joinSlash segs).data) false [] =
      [] :: splitRunsCore isSep (joinSlash segs).data true [] := rfl
  rw [hstep, splitRunsCore_joinSlash segs hne hok true]
  rw [List.map_cons, List.map_map]
  have : String.mk ∘ String.data = id := by
    funext s
    exact strMkData s
  rw [this, List.map_id]

theorem getD_of_drop : ∀ (tp : List String) (ind : Nat) (x : String) (l : List String),
    tp.drop ind = x :: l → tp.getD ind "" = x := by
  intro tp
  induction tp with
  | nil => intro ind x l h; simp at h
  | cons y tp' ih =>
    intro ind x l h
    cases ind with
    | zero =>
      simp only [List.drop] at h
      have h1 : y = x := by injection h
      subst h1
      rfl
    | succ n =>
      simp only [List.drop] at h
      simpa using ih n x l h

theorem diffAux_pushMode (tp : List String) (toLen : Nat) :
    ∀ (fs : List String) (ind : Nat) (rest : String) (ret : List String),
      ret ≠ [] →
      diffAux tp toLen fs ind rest ret = (rest, ret ++ List.replicate fs.length "..") := by
  intro fs
  induction fs with
  | nil => intro ind rest ret _; simp [diffAux]
  | cons f fs' ih =>
    intro ind rest ret hne
    have hlen : 0 < ret.length := List.length_pos.mpr hne
    simp only [diffAux]
    rw [if_pos (Or.inl hlen), ih (ind + 1) rest (ret ++ [".."]) (by simp)]
    simp [List.replicate_succ]

theorem diffAux_overrun (tp : List String) (toLen : Nat) :
    ∀ (fs : List String) (ind : Nat), toLen ≤ ind →
      diffAux tp toLen fs ind "" [] = ("", List.replicate fs.length "..") := by
  intro fs ind h
  cases fs with
  | nil => simp [diffAux]
  | cons f fs' =>
    simp only [diffAux]
    rw [if_pos (Or.inr h)]
    simp only [List.nil_append]
    rw [diffAux_pushMode tp toLen fs' (ind + 1) "" [".."] (by simp)]
    simp [List.replicate_succ]

theorem diffAux_exhaust (tp : List String) :
    ∀ (com extra : List String) (ind : Nat), tp.drop ind = com →
      diffAux tp tp.length (com ++ extra) ind "" [] =
        ("", List.replicate extra.length "..") := by
  intro com
  induction com with
  | nil =>
    intro extra ind h
    have hle : tp.length ≤ ind := List.drop_eq_nil_iff.mp h
    simpa using diffAux_overrun tp tp.length extra ind hle
  | cons x com' ih =>
    intro extra ind h
    have hlt : ind < tp.length := by
      by_contra hge
      push_neg at hge
      rw [List.drop_eq_nil_iff.mpr hge] at h
      cases h
    have hget : tp.getD ind "" = x := getD_of_drop tp ind x com' h
    have hdrop : tp.drop (ind + 1) = com' := by
      rw [← List.tail_drop tp ind, h]
      rfl
    show diffAux tp tp.length (x :: (com' ++ extra)) ind "" [] = _
    simp only [diffAux]
    rw [if_neg (by simp; omega), if_neg (not_ne_iff.mpr hget.symm)]
    exact ih extra (ind + 1) hdrop

theorem diffAux_diverge (tp : List String) :
    ∀ (com : List String) (a : String) (sa' : List String) (b : String)
      (sb' : List String) (ind : Nat),
      a ≠ b → tp.drop ind = com ++ b :: sb' →
      diffAux tp tp.length (com ++ a :: sa') ind "" [] =
        (joinSlash (tp.drop (ind + com.length)),
          List.replicate (sa'.length + 1) "..") := by
  intro com
  induction com with
  | nil =>
    intro a sa' b sb' ind hab h
    rw [List.nil_append] at h
    have hlt : ind < tp.length := by
      by_contra hge
      push_neg at hge
      rw [List.drop_eq_nil_iff.mpr hge] at h
      cases h
    have hget : tp.getD ind "" = b := getD_of_drop tp ind b sb' h
    show diffAux tp tp.length (a :: sa') ind "" [] = _
    simp only [diffAux]
    rw [if_neg (by simp; omega), if_pos (by rw [hget]; exact hab)]
    have hmin : min ind (tp.length - 1) = ind := by omega
    rw [hmin]
    simp only [List.nil_append]
    rw [diffAux_pushMode tp tp.length sa' (ind + 1) _ [".."] (by simp)]
    simp [List.replicate_succ]
  | cons x com' ih =>
    intro a sa' b sb' ind hab h
    have hlt : ind < tp.length := by
      by_contra hge
      push_neg at hge
      rw [List.drop_eq_nil_iff.mpr hge] at h
      cases h
    have hget : tp.getD ind "" = x := by
      apply getD_of_drop tp ind x (com' ++ b :: sb')
      simpa using h
    have hdrop : tp.drop (ind + 1) = com' ++ b :: sb' := by
      rw [← List.tail_drop tp ind, h]
      simp
    show diffAux tp tp.length (x :: (com' ++ a :: sa')) ind "" [] = _
    simp only [diffAux]
    rw [if_neg (by simp; omega), if_neg (not_ne_iff.mpr hget.symm)]
    rw [ih a sa' b sb' (ind + 1) hab hdrop]
    have : ind + 1 + com'.length = ind + (x :: com').length := by
      simp [List.length_cons]
      omega
    rw [this]

theorem segs_trichotomy : ∀ (sa sb : List String),
    sa <+: sb ∨
    (sb <+: sa ∧ commonPrefixLen sa sb = sb.length) ∨
    (∃ com a sa' b sb', a ≠ b ∧ sa = com ++ a :: sa' ∧ sb = com ++ b :: sb' ∧
      commonPrefixLen sa sb = com.length) := by
  intro sa
  induction sa with
  | nil => intro sb; exact Or.inl List.nil_prefix
  | cons x sa₁ ih =>
    intro sb
    cases sb with
    | nil =>
      refine Or.inr (Or.inl ⟨List.nil_prefix, ?_⟩)
      rfl
    | cons y sb₁ =>
      by_cases hxy : x = y
      · subst hxy
        rcases ih sb₁ with h | ⟨h, hc⟩ | ⟨com, a, sa', b, sb', hab, hsa, hsb, hc⟩
        · obtain ⟨t, ht⟩ := h
          exact Or.inl ⟨t, by rw [← ht]; rfl⟩
        · refine Or.inr (Or.inl ⟨?_, ?_⟩)
          · obtain ⟨t, ht⟩ := h
            exact ⟨t, by rw [← ht]; rfl⟩
          · simp [commonPrefixLen, hc]
        · refine Or.inr (Or.inr ⟨x :: com, a, sa', b, sb', hab, by simp [hsa],
            by simp [hsb], ?_⟩)
          simp [commonPrefixLen, hc]
      · exact Or.inr (Or.inr ⟨[], x, sa₁, y, sb₁, hxy, rfl, rfl,
          by simp [commonPrefixLen, hxy]⟩)

theorem resolveSegs_pops : ∀ (k : Nat) (acc rest : List String),
    resolveSegs acc (List.replicate k ".." ++ rest) =
      resolveSegs (acc.take (acc.length - k)) rest := by
  intro k
  induction k with
  | zero =>
    intro acc rest
    simp [List.take_length]
  | succ n ih =>
    intro acc rest
    show resolveSegs acc (".." :: (List.replicate n ".." ++ rest)) = _
    rw [show resolveSegs acc (".." :: (List.replicate n ".." ++ rest)) =
      resolveSegs acc.dropLast (List.replicate n ".." ++ rest) from by
        simp [resolveSegs]]
    rw [ih acc.dropLast rest]
    congr 1
    rw [List.dropLast_eq_take acc, List.length_take, List.take_take]
    congr 1
    omega

theorem resolveSegs_valid : ∀ (l acc : List String),
    (∀ s ∈ l, s ≠ ".." ∧ s ≠ "." ∧ s ≠ "") → resolveSegs acc l = acc ++ l := by
  intro l
  induction l with
  | nil => intro acc _; simp [resolveSegs]
  | cons s rest ih =>
    intro acc h
    obtain ⟨h1, h2, h3⟩ := h s (by simp)
    simp only [resolveSegs, if_neg h1]
    rw [if_neg (by simp [h2, h3])]
    rw [ih (acc ++ [s]) (fun t ht => h t (by simp [ht]))]
    simp

theorem joinSlash_cons₂ (a b : String) (t : List String) :
    joinSlash (a :: b :: t) = a ++ "/" ++ joinSlash (b :: t) := rfl

theorem joinSlash_append_join (xs ys : List String) (hys : ys ≠ []) :
    joinSlash (xs ++ [joinSlash ys]) = joinSlash (xs ++ ys) := by
  induction xs with
  | nil =>
    cases ys with
    | nil => exact absurd rfl hys
    | cons b t => rfl
  | cons x xs' ih =>
    cases xs' with
    | nil =>
      cases ys with
      | nil => exact absurd rfl hys
      | cons b t => rfl
    | cons x2 xs'' =>
      have h1 : (x :: x2 :: xs'') ++ [joinSlash ys] =
          x :: (x2 :: (xs'' ++ [joinSlash ys])) := by simp
      have h2 : (x :: x2 :: xs'') ++ ys = x :: (x2 :: (xs'' ++ ys)) := by simp
      rw [h1, h2, joinSlash_cons₂, joinSlash_cons₂]
      have := ih
      rw [show (x2 :: xs'') ++ [joinSlash ys] = x2 :: (xs'' ++ [joinSlash ys]) from
        by simp] at this
      rw [show (x2 :: xs'') ++ ys = x2 :: (xs'' ++ ys) from by simp] at this
      rw [this]

theorem joinSlash_cons_ne_empty (b : String) (t : List String) (hb : b ≠ "") :
    joinSlash (b :: t) ≠ "" := by
  cases t with
  | nil => exact hb
  | cons c r => exact str_append_ne_empty _ _ (str_append_ne_empty _ _ hb)

theorem joinSlash_replicate_head (k : Nat) (rest : List String) (hk : 0 < k) :
    ∃ t, joinSlash (List.replicate k ".." ++ rest) = ".." ++ t := by
  cases k with
  | zero => omega
  | succ n =>
    show ∃ t, joinSlash (".." :: (List.replicate n ".." ++ rest)) = ".." ++ t
    cases hrr : List.replicate n ".." ++ rest with
    | nil => exact ⟨"", by simp [joinSlash, joinWith]⟩
    | cons c r =>
      refine ⟨"/" ++ joinSlash (c :: r), ?_⟩
      rw [joinSlash_cons₂, String.append_assoc]

theorem validSeg_props (s : String) (h : validSeg s = true) :
    s ≠ "" ∧ s ≠ "." ∧ s ≠ ".." ∧ segOk s = true := by
  have h' := h
  simp only [validSeg, Bool.and_eq_true, bne_iff_ne] at h'
  obtain ⟨⟨hok, hdot⟩, hddot⟩ := h'
  refine ⟨?_, hdot, hddot, hok⟩
  intro hc
  subst hc
  simp [segOk] at hok

theorem mkPath_head (segs : List String) :
    (mkPath segs).data.head? = some '/' := by
  show (("/" : String) ++ joinSlash segs).data.head? = some '/'
  rw [String.data_append]
  rfl

theorem filter_ne_empty_cons (l : List String) (h : ∀ s ∈ l, s ≠ "") :
    ("" :: l).filter (fun s => s ≠ "") = l := by
  rw [List.filter_cons]
  simp only [ne_eq, not_true_eq_false, decide_False, Bool.false_eq_true, if_false]
  rw [List.filter_eq_self]
  intro a ha
  simpa using h a ha

theorem replicate_append_ne_nil (k : Nat) (hk : 0 < k) (rest : List String) :
    List.replicate k ".." ++ rest ≠ [] := by
  cases k with
  | zero => omega
  | succ n => simp [List.replicate_succ]

theorem replicate_append_segOk (k : Nat) (rest : List String)
    (hrest : ∀ s ∈ rest, segOk s = true) :
    ∀ s ∈ List.replicate k ".." ++ rest, segOk s = true := by
  intro s hs
  rcases List.mem_append.mp hs with h | h
  · rw [List.eq_of_mem_replicate h]
    decide
  · exact hrest s h

/-- Resolving `k` ups followed by `rest` against the canonical path of
`sa` lands on `pre ++ rest`, when `pre` is what remains of `sa` after
popping `k` segments. -/
theorem resolve_ups (sa pre rest : List String) (k : Nat)
    (hvaAll : ∀ s ∈ sa, validSeg s = true)
    (hrestAll : ∀ s ∈ rest, validSeg s = true)
    (hna : sa ≠ []) (hk : 0 < k)
    (htake : sa.take (sa.length - k) = pre) :
    resolvePath (mkPath sa) (joinSlash (List.replicate k ".." ++ rest)) =
      mkPath (pre ++ rest) := by
  have hLne := replicate_append_ne_nil k hk rest
  have hLok := replicate_append_segOk k rest
    (fun s hs => (validSeg_props s (hrestAll s hs)).2.2.2)
  have hsplit : splitParts (joinSlash (List.replicate k ".." ++ rest)) =
      List.replicate k ".." ++ rest :=
    splitParts_joinSlash _ hLne hLok
  obtain ⟨t, ht⟩ := joinSlash_replicate_head k rest hk
  have hhead : ¬ (joinSlash (List.replicate k ".." ++ rest)).data.head? = some '/' := by
    rw [ht, String.data_append (".." : String) t]
    intro hcon
    simp at hcon
  unfold resolvePath
  rw [if_neg hhead, hsplit,
    splitParts_mkPath sa hna (fun s hs => (validSeg_props s (hvaAll s hs)).2.2.2),
    filter_ne_empty_cons sa (fun s hs => (validSeg_props s (hvaAll s hs)).1),
    resolveSegs_pops k sa rest, htake,
    resolveSegs_valid rest pre (fun s hs =>
      ⟨(validSeg_props s (hrestAll s hs)).2.2.1,
       (validSeg_props s (hrestAll s hs)).2.1,
       (validSeg_props s (hrestAll s hs)).1⟩)]

theorem segOk_ne_empty (s : String) (h : segOk s = true) : s ≠ "" := by
  intro hc
  subst hc
  simp [segOk] at h

theorem diffAux_skip_root (sb : List String) (sa₂ : List String) :
    diffAux ("" :: sb) ("" :: sb).length ("" :: sa₂) 0 "" [] =
      diffAux ("" :: sb) ("" :: sb).length sa₂ 1 "" [] := by
  simp only [diffAux]
  rw [if_neg (by simp),
    if_neg (show ¬(("" : String) ≠ ("" :: sb).getD 0 "") from not_ne_iff.mpr rfl)]

theorem diffPaths_calc_ancestor (sa sb extra : List String)
    (hsaOk : ∀ s ∈ sa, segOk s = true) (hsbOk : ∀ s ∈ sb, segOk s = true)
    (hna : sa ≠ []) (hnb : sb ≠ [])
    (hext : sb ++ extra = sa) (hextne : extra ≠ []) :
    diffPaths (mkPath sa) (mkPath sb) =
      (if (joinSlash (List.replicate extra.length "..")).length < (mkPath sb).length
       then joinSlash (List.replicate extra.length "..") else mkPath sb) := by
  have h1 := splitParts_mkPath sa hna hsaOk
  have h2 := splitParts_mkPath sb hnb hsbOk
  have hres : diffAux ("" :: sb) ("" :: sb).length sa 1 "" [] =
      ("", List.replicate extra.length "..") := by
    rw [← hext]
    exact diffAux_exhaust ("" :: sb) sb extra 1 rfl
  have hlen := congrArg List.length hext
  rw [List.length_append] at hlen
  have hexlen : 0 < extra.length := List.length_pos.mpr hextne
  unfold diffPaths
  simp only [h1, h2, diffAux_skip_root, hres]
  rw [if_neg (show ¬(("" : String) ≠ "") from by simp)]
  rw [if_neg (show ¬(("" :: sa).length < ("" :: sb).length) from by simp; omega)]

theorem diffPaths_calc_diverge (sa sb com : List String) (a b : String)
    (sa' sb' : List String) (hab : a ≠ b)
    (hsaOk : ∀ s ∈ sa, segOk s = true) (hsbOk : ∀ s ∈ sb, segOk s = true)
    (hna : sa ≠ []) (hnb : sb ≠ [])
    (hsa : sa = com ++ a :: sa') (hsb : sb = com ++ b :: sb') :
    diffPaths (mkPath sa) (mkPath sb) =
      (if (joinSlash (List.replicate (sa'.length + 1) ".." ++ b :: sb')).length <
          (mkPath sb).length
       then joinSlash (List.replicate (sa'.length + 1) ".." ++ b :: sb')
       else mkPath sb) := by
  have h1 := splitParts_mkPath sa hna hsaOk
  have h2 := splitParts_mkPath sb hnb hsbOk
  have hdrop1 : ("" :: sb).drop 1 = com ++ b :: sb' := by
    show sb = com ++ b :: sb'
    exact hsb
  have hres : diffAux ("" :: sb) ("" :: sb).length sa 1 "" [] =
      (joinSlash (("" :: sb).drop (1 + com.length)),
        List.replicate (sa'.length + 1) "..") := by
    rw [hsa]
    exact diffAux_diverge ("" :: sb) com a sa' b sb' 1 hab hdrop1
  have hdropc : ("" :: sb).drop (1 + com.length) = b :: sb' := by
    rw [show 1 + com.length = com.length + 1 from by omega]
    show sb.drop com.length = b :: sb'
    rw [hsb]
    exact List.drop_left com (b :: sb')
  rw [hdropc] at hres
  have hbne : b ≠ "" := segOk_ne_empty b (hsbOk b (by rw [hsb]; simp))
  have hrestne : joinSlash (b :: sb') ≠ "" := joinSlash_cons_ne_empty b sb' hbne
  unfold diffPaths
  simp only [h1, h2, diffAux_skip_root, hres]
  rw [if_pos hrestne]
  rw [joinSlash_append_join (List.replicate (sa'.length + 1) "..") (b :: sb')
    (by simp)]

/-- Claim C1: for absolute directory paths `A = mkPath sa` and
`B = mkPath sb` in resolved canonical form, where `B` is not a descendant
of `A` (the segments of `A` are not a prefix of those of `B`; `B = A`,
the trivial self case with relative form `""`, is covered by the spec's
separate `relativePath(A, A) = ""` property), `diffPaths` produces the
`".."`-prefixed relative form built from one `".."` per remaining segment
of `A` plus the diverging suffix of `B`; resolving that form against `A`
yields `B`; the function returns it exactly when it is shorter than `B`
and returns the original absolute `B` otherwise; and resolving the actual
result against `A` always yields `B`. -/
theorem claimC1_diffPaths_roundTrip (sa sb : List String)
    (hva : validSegs sa = true) (hvb : validSegs sb = true)
    (hna : sa ≠ []) (hnb : sb ≠ [])
    (hnd : ¬ sa <+: sb) :
    (∃ t, relForm sa sb = ".." ++ t) ∧
    resolvePath (mkPath sa) (relForm sa sb) = mkPath sb ∧
    diffPaths (mkPath sa) (mkPath sb) =
      (if (relForm sa sb).length < (mkPath sb).length then relForm sa sb
       else mkPath sb) ∧
    resolvePath (mkPath sa) (diffPaths (mkPath sa) (mkPath sb)) = mkPath sb := by
  have hvaAll : ∀ s ∈ sa, validSeg s = true := List.all_eq_true.mp hva
  have hvbAll : ∀ s ∈ sb, validSeg s = true := List.all_eq_true.mp hvb
  have hsaOk : ∀ s ∈ sa, segOk s = true :=
    fun s hs => (validSeg_props s (hvaAll s hs)).2.2.2
  have hsbOk : ∀ s ∈ sb, segOk s = true :=
    fun s hs => (validSeg_props s (hvbAll s hs)).2.2.2
  have hresB : resolvePath (mkPath sa) (mkPath sb) = mkPath sb := by
    unfold resolvePath
    rw [if_pos (mkPath_head sb)]
  rcases segs_trichotomy sa sb with hpre | ⟨hpre, hc⟩ |
    ⟨com, a, sa', b, sb', hab, hsa, hsb, hc⟩
  · exact absurd hpre hnd
  · -- B is an ancestor of A
    obtain ⟨extra, hext⟩ := hpre
    have hextne : extra ≠ [] := by
      intro h0
      apply hnd
      rw [h0, List.append_nil] at hext
      rw [hext]
    have hlen := congrArg List.length hext
    rw [List.length_append] at hlen
    have hexlen : 0 < extra.length := List.length_pos.mpr hextne
    have hrf : relForm sa sb = joinSlash (List.replicate extra.length "..") := by
      unfold relForm
      rw [hc, List.drop_length, List.append_nil,
        show sa.length - sb.length = extra.length from by omega]
    have htake : sa.take (sa.length - extra.length) = sb := by
      rw [show sa.length - extra.length = sb.length from by omega, ← hext]
      exact List.take_left sb extra
    have hresolve := resolve_ups sa sb [] extra.length hvaAll (by simp) hna
      hexlen htake
    simp only [List.append_nil] at hresolve
    have hdiff := diffPaths_calc_ancestor sa sb extra hsaOk hsbOk hna hnb
      hext hextne
    rw [← hrf] at hdiff hresolve
    refine ⟨?_, hresolve, hdiff, ?_⟩
    · obtain ⟨t, ht⟩ := joinSlash_replicate_head extra.length [] hexlen
      rw [List.append_nil] at ht
      exact ⟨t, by rw [hrf, ht]⟩
    · rw [hdiff]
      by_cases hg : (relForm sa sb).length < (mkPath sb).length
      · rw [if_pos hg]
        exact hresolve
      · rw [if_neg hg]
        exact hresB
  · -- A and B diverge after the common prefix
    have hlen := congrArg List.length hsa
    rw [List.length_append] at hlen
    simp only [List.length_cons] at hlen
    have hrf : relForm sa sb =
        joinSlash (List.replicate (sa'.length + 1) ".." ++ b :: sb') := by
      unfold relForm
      rw [hc, show sb.drop com.length = b :: sb' from by
          rw [hsb]; exact List.drop_left com (b :: sb'),
        show sa.length - com.length = sa'.length + 1 from by omega]
    have htake : sa.take (sa.length - (sa'.length + 1)) = com := by
      rw [show sa.length - (sa'.length + 1) = com.length from by omega, hsa]
      exact List.take_left com (a :: sa')
    have hrestAll : ∀ s ∈ b :: sb', validSeg s = true := by
      intro s hs
      apply hvbAll
      rw [hsb]
      exact List.mem_append.mpr (Or.inr hs)
    have hresolve := resolve_ups sa com (b :: sb') (sa'.length + 1) hvaAll
      hrestAll hna (by omega) htake
    rw [← hsb] at hresolve
    have hdiff := diffPaths_calc_diverge sa sb com a b sa' sb' hab hsaOk hsbOk
      hna hnb hsa hsb
    rw [← hrf] at hdiff hresolve
    refine ⟨?_, hresolve, hdiff, ?_⟩
    · obtain ⟨t, ht⟩ := joinSlash_replicate_head (sa'.length + 1) (b :: sb')
        (by omega)
      exact ⟨t, by rw [hrf, ht]⟩
    · rw [hdiff]
      by_cases hg : (relForm sa sb).length < (mkPath sb).length
      · rw [if_pos hg]
        exact hresolve
      · rw [if_neg hg]
        exact hresB

/-- Witness for claim C1 at `/home/alice/project` vs `/home/alice/website`
(the relative form `"../website"` is shorter and is returned). -/
theorem claimC1_diffPaths_roundTrip_witness :
    (∃ t, relForm ["home", "alice", "project"] ["home", "alice", "website"] =
      ".." ++ t) ∧
    resolvePath (mkPath ["home", "alice", "project"])
      (relForm ["home", "alice", "project"] ["home", "alice", "website"]) =
      mkPath ["home", "alice", "website"] ∧
    diffPaths (mkPath ["home", "alice", "project"])
      (mkPath ["home", "alice", "website"]) =
      (if (relForm ["home", "alice", "project"] ["home", "alice", "website"]).length <
          (mkPath ["home", "alice", "website"]).length then
        relForm ["home", "alice", "project"] ["home", "alice", "website"]
       else mkPath ["home", "alice", "website"]) ∧
    resolvePath (mkPath ["home", "alice", "project"])
      (diffPaths (mkPath ["home", "alice", "project"])
        (mkPath ["home", "alice", "website"])) =
      mkPath ["home", "alice", "website"] :=
  claimC1_diffPaths_roundTrip ["home", "alice", "project"]
    ["home", "alice", "website"] (by decide) (by decide) (by decide) (by decide)
    (by decide)

/-! ## Recursive folder copy (`copyFolderContent`) -/

/-- Counterexample to claim C3 as stated: with the destination path
occupied by a file (one possible prior destination state), the copy fails
with the `mkdir` error and the destination is left as the old file — not
a tree byte-identical to the source. -/
theorem claimC3_counterexample :
    (copyFolderContent 3 fsFileAtDst ["src"] ["dst"]).2 =
      "file already exists at /dst" ∧
    lookupAt (copyFolderContent 3 fsFileAtDst ["src"] ["dst"]).1 ["dst"] =
      some (FsNode.file "junk") ∧
    lookupAt fsFileAtDst ["src"] =
      some (FsNode.dir [("a.txt", FsNode.file "hello")]) :=
  ⟨rfl, rfl, rfl⟩

theorem findChild_replaceChild_self (cs : List (String × FsNode)) (s : String)
    (m Y : FsNode) (h : findChild cs s = some m) :
    findChild (replaceChild cs s Y) s = some Y := by
  induction cs with
  | nil => simp [findChild, List.find?] at h
  | cons c rest ih =>
    by_cases hc : c.1 = s
    · simp [replaceChild, findChild, List.find?, hc]
    · have hc' : (c.1 == s) = false := by simp [hc]
      simp only [replaceChild, hc', Bool.false_eq_true, if_false]
      simp only [findChild, List.find?, hc'] at h ⊢
      exact ih h

theorem findChild_replaceChild_ne (cs : List (String × FsNode)) (s t : String)
    (Y : FsNode) (h : t ≠ s) :
    findChild (replaceChild cs s Y) t = findChild cs t := by
  induction cs with
  | nil => rfl
  | cons c rest ih =>
    by_cases hc : c.1 = s
    · have hc' : (c.1 == s) = true := by simp [hc]
      have hct : (c.1 == t) = false := by
        simp only [beq_eq_false_iff_ne, ne_eq]
        intro hh
        apply h
        rw [← hh, hc]
      simp only [replaceChild, hc', if_true]
      show findChild ((c.1, Y) :: rest) t = findChild (c :: rest) t
      simp only [findChild, List.find?, hct]
    · have hc' : (c.1 == s) = false := by simp [hc]
      simp only [replaceChild, hc', Bool.false_eq_true, if_false]
      by_cases hct : c.1 = t
      · have hct' : (c.1 == t) = true := by simp [hct]
        simp [findChild, List.find?, hct']
      · have hct' : (c.1 == t) = false := by simp [hct]
        simp only [findChild, List.find?, hct'] at ih ⊢
        exact ih

theorem findChild_append_new (cs : List (String × FsNode)) (s : String)
    (Y : FsNode) (h : findChild cs s = none) :
    findChild (cs ++ [(s, Y)]) s = some Y := by
  induction cs with
  | nil => simp [findChild, List.find?]
  | cons c rest ih =>
    by_cases hc : c.1 = s
    · simp [findChild, List.find?, hc] at h
    · have hc' : (c.1 == s) = false := by simp [hc]
      simp only [findChild, List.find?, hc'] at h
      simp only [List.cons_append, findChild, List.find?, hc']
      exact ih h

theorem findChild_append_ne (cs : List (String × FsNode)) (s t : String)
    (Y : FsNode) (h : t ≠ s) :
    findChild (cs ++ [(s, Y)]) t = findChild cs t := by
  induction cs with
  | nil =>
    have hst : (s == t) = false := by
      simp only [beq_eq_false_iff_ne, ne_eq]
      intro hh
      exact h hh.symm
    simp [findChild, List.find?, hst]
  | cons c rest ih =>
    by_cases hct : c.1 = t
    · simp [findChild, List.find?, hct]
    · have hct' : (c.1 == t) = false := by simp [hct]
      simp only [List.cons_append, findChild, List.find?, hct'] at ih ⊢
      exact ih

theorem replaceChild_replaceChild (cs : List (String × FsNode)) (s : String)
    (Y Z : FsNode) :
    replaceChild (replaceChild cs s Y) s Z = replaceChild cs s Z := by
  induction cs with
  | nil => rfl
  | cons c rest ih =>
    by_cases hc : c.1 = s
    · have hc' : (c.1 == s) = true := by simp [hc]
      simp [replaceChild, hc']
    · have hc' : (c.1 == s) = false := by simp [hc]
      simp [replaceChild, hc', ih]

theorem replaceChild_append_last (cs : List (String × FsNode)) (s : String)
    (Y Z : FsNode) (h : findChild cs s = none) :
    replaceChild (cs ++ [(s, Y)]) s Z = cs ++ [(s, Z)] := by
  induction cs with
  | nil => simp [replaceChild]
  | cons c rest ih =>
    by_cases hc : c.1 = s
    · simp [findChild, List.find?, hc] at h
    · have hc' : (c.1 == s) = false := by simp [hc]
      simp only [findChild, List.find?, hc'] at h
      simp [replaceChild, hc', ih h]

theorem pathClear_empty_dir : ∀ p : List String, pathClear (FsNode.dir []) p = true
  | [] => rfl
  | _ :: _ => rfl

theorem setNodeAt_nil (fs X : FsNode) : setNodeAt fs [] X = X := by
  cases fs <;> rfl

theorem lookupAt_setNodeAt_self : ∀ (p : List String) (fs : FsNode) (X : FsNode)
    (q : List String), pathClear fs p = true →
    lookupAt (setNodeAt fs p X) (p ++ q) = lookupAt X q := by
  intro p
  induction p with
  | nil =>
    intro fs X q _
    rw [setNodeAt_nil]
    rfl
  | cons s p' ih =>
    intro fs X q hclear
    cases fs with
    | file c => simp [pathClear] at hclear
    | dir cs =>
      cases hfc : findChild cs s with
      | some m =>
        have hclear' : pathClear m p' = true := by
          simpa [pathClear, hfc] using hclear
        show lookupAt (setNodeAt (FsNode.dir cs) (s :: p') X) (s :: (p' ++ q)) = _
        simp only [setNodeAt, hfc]
        show (match findChild (replaceChild cs s (setNodeAt m p' X)) s with
          | some m2 => lookupAt m2 (p' ++ q)
          | none => none) = lookupAt X q
        rw [findChild_replaceChild_self cs s m _ hfc]
        exact ih m X q hclear'
      | none =>
        show lookupAt (setNodeAt (FsNode.dir cs) (s :: p') X) (s :: (p' ++ q)) = _
        simp only [setNodeAt, hfc]
        show (match findChild (cs ++ [(s, setNodeAt (FsNode.dir []) p' X)]) s with
          | some m2 => lookupAt m2 (p' ++ q)
          | none => none) = lookupAt X q
        rw [findChild_append_new cs s _ hfc]
        exact ih (FsNode.dir []) X q (pathClear_empty_dir p')

theorem lookupAt_setNodeAt_frame : ∀ (p : List String) (fs X : FsNode)
    (q : List String), ¬ p <+: q → ¬ q <+: p →
    lookupAt (setNodeAt fs p X) q = lookupAt fs q := by
  intro p
  induction p with
  | nil => intro fs X q h1 _; exact absurd List.nil_prefix h1
  | cons s p' ih =>
    intro fs X q h1 h2
    cases q with
    | nil => exact absurd List.nil_prefix h2
    | cons t q' =>
      cases fs with
      | file c => rfl
      | dir cs =>
        by_cases hst : s = t
        · subst hst
          have h1' : ¬ p' <+: q' := by
            intro hp
            apply h1
            obtain ⟨r, hr⟩ := hp
            exact ⟨r, by rw [← hr]; rfl⟩
          have h2' : ¬ q' <+: p' := by
            intro hp
            apply h2
            obtain ⟨r, hr⟩ := hp
            exact ⟨r, by rw [← hr]; rfl⟩
          cases hfc : findChild cs s with
          | some m =>
            have hrhs : lookupAt (FsNode.dir cs) (s :: q') = lookupAt m q' := by
              show (match findChild cs s with
                | some m2 => lookupAt m2 q'
                | none => none) = lookupAt m q'
              rw [hfc]
            rw [hrhs]
            show lookupAt (setNodeAt (FsNode.dir cs) (s :: p') X) (s :: q') = _
            simp only [setNodeAt, hfc]
            show (match findChild (replaceChild cs s (setNodeAt m p' X)) s with
              | some m2 => lookupAt m2 q'
              | none => none) = lookupAt m q'
            rw [findChild_replaceChild_self cs s m _ hfc]
            exact ih m X q' h1' h2'
          | none =>
            have hq' : q' ≠ [] := fun h0 => h2' (h0 ▸ List.nil_prefix)
            obtain ⟨u, q'', rfl⟩ := List.exists_cons_of_ne_nil hq'
            have hrhs : lookupAt (FsNode.dir cs) (s :: u :: q'') = none := by
              show (match findChild cs s with
                | some m2 => lookupAt m2 (u :: q'')
                | none => none) = none
              rw [hfc]
            rw [hrhs]
            show lookupAt (setNodeAt (FsNode.dir cs) (s :: p') X) (s :: u :: q'') = none
            simp only [setNodeAt, hfc]
            show (match findChild (cs ++ [(s, setNodeAt (FsNode.dir []) p' X)]) s with
              | some m2 => lookupAt m2 (u :: q'')
              | none => none) = none
            rw [findChild_append_new cs s _ hfc]
            exact (ih (FsNode.dir []) X (u :: q'') h1' h2').trans rfl
        · cases hfc : findChild cs s with
          | some m =>
            show lookupAt (setNodeAt (FsNode.dir cs) (s :: p') X) (t :: q') = _
            simp only [setNodeAt, hfc]
            show (match findChild (replaceChild cs s (setNodeAt m p' X)) t with
              | some m2 => lookupAt m2 q'
              | none => none) =
              (match findChild cs t with
              | some m2 => lookupAt m2 q'
              | none => none)
            rw [findChild_replaceChild_ne cs s t _ (Ne.symm hst)]
          | none =>
            show lookupAt (setNodeAt (FsNode.dir cs) (s :: p') X) (t :: q') = _
            simp only [setNodeAt, hfc]
            show (match findChild (cs ++ [(s, setNodeAt (FsNode.dir []) p' X)]) t with
              | some m2 => lookupAt m2 q'
              | none => none) =
              (match findChild cs t with
              | some m2 => lookupAt m2 q'
              | none => none)
            rw [findChild_append_ne cs s t _ (Ne.symm hst)]

theorem setNodeAt_overwrite : ∀ (p : List String) (fs X Y : FsNode),
    setNodeAt (setNodeAt fs p X) p Y = setNodeAt fs p Y := by
  intro p
  induction p with
  | nil => intro fs X Y; simp [setNodeAt_nil]
  | cons s p' ih =>
    intro fs X Y
    cases fs with
    | file c => rfl
    | dir cs =>
      cases hfc : findChild cs s with
      | some m =>
        show setNodeAt (setNodeAt (FsNode.dir cs) (s :: p') X) (s :: p') Y = _
        simp only [setNodeAt, hfc]
        simp only [setNodeAt, findChild_replaceChild_self cs s m _ hfc]
        rw [replaceChild_replaceChild, ih m X Y]
      | none =>
        show setNodeAt (setNodeAt (FsNode.dir cs) (s :: p') X) (s :: p') Y = _
        simp only [setNodeAt, hfc]
        simp only [setNodeAt, findChild_append_new cs s _ hfc]
        rw [replaceChild_append_last cs s _ _ hfc, ih (FsNode.dir []) X Y]

theorem setNodeAt_snoc_child : ∀ (p : List String) (fs : FsNode)
    (L : List (String × FsNode)) (n : String) (v : FsNode),
    pathClear fs p = true → findChild L n = none →
    setNodeAt (setNodeAt fs p (FsNode.dir L)) (p ++ [n]) v =
      setNodeAt fs p (FsNode.dir (L ++ [(n, v)])) := by
  intro p
  induction p with
  | nil =>
    intro fs L n v _ hn
    rw [setNodeAt_nil]
    show setNodeAt (FsNode.dir L) ([n]) v = setNodeAt fs [] (FsNode.dir (L ++ [(n, v)]))
    rw [setNodeAt_nil]
    simp only [setNodeAt, hn, setNodeAt_nil]
  | cons s p' ih =>
    intro fs L n v hclear hn
    cases fs with
    | file c => simp [pathClear] at hclear
    | dir cs =>
      cases hfc : findChild cs s with
      | some m =>
        have hclear' : pathClear m p' = true := by
          simpa [pathClear, hfc] using hclear
        show setNodeAt (setNodeAt (FsNode.dir cs) (s :: p') (FsNode.dir L))
          (s :: (p' ++ [n])) v = _
        simp only [setNodeAt, hfc]
        simp only [setNodeAt, findChild_replaceChild_self cs s m _ hfc]
        rw [replaceChild_replaceChild, ih m L n v hclear' hn]
      | none =>
        show setNodeAt (setNodeAt (FsNode.dir cs) (s :: p') (FsNode.dir L))
          (s :: (p' ++ [n])) v = _
        simp only [setNodeAt, hfc]
        simp only [setNodeAt, findChild_append_new cs s _ hfc]
        rw [replaceChild_append_last cs s _ _ hfc,
          ih (FsNode.dir []) L n v (pathClear_empty_dir p') hn]

theorem lookupAt_append : ∀ (p : List String) (fs : FsNode) (q : List String),
    lookupAt fs (p ++ q) =
      (match lookupAt fs p with
      | some m => lookupAt m q
      | none => none) := by
  intro p
  induction p with
  | nil => intro fs q; cases fs <;> rfl
  | cons s p' ih =>
    intro fs q
    cases fs with
    | file c => rfl
    | dir cs =>
      cases hfc : findChild cs s with
      | some m =>
        show lookupAt (FsNode.dir cs) (s :: (p' ++ q)) = _
        simp only [lookupAt, hfc]
        exact ih m q
      | none =>
        show lookupAt (FsNode.dir cs) (s :: (p' ++ q)) = _
        simp only [lookupAt, hfc]

theorem pathClear_of_lookup_dir : ∀ (p : List String) (fs : FsNode)
    (L : List (String × FsNode)), lookupAt fs p = some (FsNode.dir L) →
    pathClear fs p = true := by
  intro p
  induction p with
  | nil =>
    intro fs L h
    cases fs with
    | file c => exact FsNode.noConfusion (Option.some.inj h)
    | dir cs => rfl
  | cons s p' ih =>
    intro fs L h
    cases fs with
    | file c => exact Option.noConfusion h
    | dir cs =>
      cases hfc : findChild cs s with
      | some m =>
        simp only [lookupAt, hfc] at h
        simp only [pathClear, hfc]
        exact ih m L h
      | none =>
        simp only [lookupAt, hfc] at h
        exact Option.noConfusion h

theorem pathClear_append_child : ∀ (p : List String) (fs : FsNode)
    (L : List (String × FsNode)) (n : String),
    lookupAt fs p = some (FsNode.dir L) → findChild L n = none →
    pathClear fs (p ++ [n]) = true := by
  intro p
  induction p with
  | nil =>
    intro fs L n h hn
    cases fs with
    | file c => exact FsNode.noConfusion (Option.some.inj h)
    | dir cs =>
      have hcl : cs = L := by
        have h2 := Option.some.inj h
        injection h2
      subst hcl
      simp only [List.nil_append, pathClear, hn]
  | cons s p' ih =>
    intro fs L n h hn
    cases fs with
    | file c => exact Option.noConfusion h
    | dir cs =>
      cases hfc : findChild cs s with
      | some m =>
        simp only [lookupAt, hfc] at h
        show pathClear (FsNode.dir cs) (s :: (p' ++ [n])) = true
        simp only [pathClear, hfc]
        exact ih m L n h hn
      | none =>
        simp only [lookupAt, hfc] at h
        exact Option.noConfusion h

theorem findChild_cons (c : String × FsNode) (cs : List (String × FsNode))
    (n : String) : findChild (c :: cs) n =
      (if c.1 == n then some c.2 else findChild cs n) := by
  cases hcb : c.1 == n <;> simp [findChild, List.find?, hcb]

theorem findChild_append_mid : ∀ (done : List (String × FsNode)) (n : String)
    (v : FsNode) (rest : List (String × FsNode)), findChild done n = none →
    findChild (done ++ (n, v) :: rest) n = some v := by
  intro done n v rest
  induction done with
  | nil => intro _; simp [findChild, List.find?]
  | cons c done' ih =>
    intro h
    rw [findChild_cons] at h
    show findChild (c :: (done' ++ (n, v) :: rest)) n = some v
    rw [findChild_cons]
    cases hcb : c.1 == n with
    | true =>
      rw [if_pos hcb] at h
      exact Option.noConfusion h
    | false =>
      rw [if_neg (show ¬((c.1 == n) = true) from by simp [hcb])] at h
      rw [if_neg (show ¬(false = true) from by simp)]
      exact ih h

theorem namesNodup_append_mid : ∀ (done : List (String × FsNode)) (n : String)
    (v : FsNode) (rest : List (String × FsNode)),
    namesNodup (done ++ (n, v) :: rest) = true → findChild done n = none := by
  intro done n v rest
  induction done with
  | nil => intro _; rfl
  | cons c done' ih =>
    intro h
    simp only [List.cons_append, namesNodup, Bool.and_eq_true] at h
    obtain ⟨h1, h2⟩ := h
    have h1' : (done' ++ (n, v) :: rest).any (fun d => d.1 == c.1) = false := by
      revert h1
      cases (done' ++ (n, v) :: rest).any (fun d => d.1 == c.1) <;> simp
    have hm : (n, v) ∈ done' ++ (n, v) :: rest :=
      List.mem_append_right _ (List.mem_cons_self _ _)
    have hcne : (n == c.1) = false := by
      cases hnb : n == c.1 with
      | false => rfl
      | true =>
        exfalso
        have hany : (done' ++ (n, v) :: rest).any (fun d => d.1 == c.1) = true :=
          List.any_eq_true.mpr ⟨(n, v), hm, hnb⟩
        exact Bool.noConfusion (h1'.symm.trans hany)
    have hcn : (c.1 == n) = false := by
      rw [beq_eq_false_iff_ne] at hcne ⊢
      exact fun hh => hcne hh.symm
    rw [findChild_cons, if_neg (by rw [hcn]; simp)]
    exact ih h2

theorem wfFuel_succ (fuel : Nat) (cs : List (String × FsNode)) :
    wfFuel (Nat.succ fuel) (FsNode.dir cs) = true ↔
      namesNodup cs = true ∧ ∀ c ∈ cs, wfFuel fuel c.2 = true := by
  simp [wfFuel, List.all_eq_true, Bool.and_eq_true]

theorem getFileTypeAt_cons_some (cs : List (String × FsNode)) (s : String)
    (m : FsNode) (p : List String) (hfc : findChild cs s = some m) :
    getFileTypeAt (FsNode.dir cs) (s :: p) = getFileTypeAt m p := by
  simp only [getFileTypeAt, lookupAt, hfc]

theorem mkdirCreate_clear : ∀ (p : List String) (fs : FsNode),
    pathClear fs p = true →
    ∃ fs1, mkdirCreate fs p = some fs1 ∧ isFolderAt fs1 p = true ∧
      setNodeAt fs1 p (FsNode.dir []) = setNodeAt fs p (FsNode.dir []) := by
  intro p
  induction p with
  | nil =>
    intro fs h
    cases fs with
    | file c => exact Bool.noConfusion h
    | dir cs => exact ⟨FsNode.dir cs, rfl, rfl, rfl⟩
  | cons s p' ih =>
    intro fs h
    cases fs with
    | file c => exact Bool.noConfusion h
    | dir cs =>
      cases hfc : findChild cs s with
      | some m =>
        have h' : pathClear m p' = true := by
          simpa [pathClear, hfc] using h
        obtain ⟨m1, hmk, hisf, hset⟩ := ih m h'
        refine ⟨FsNode.dir (replaceChild cs s m1), ?_, ?_, ?_⟩
        · show mkdirCreate (FsNode.dir cs) (s :: p') = _
          simp only [mkdirCreate, hfc, hmk]
        · show isFolderAt (FsNode.dir (replaceChild cs s m1)) (s :: p') = true
          rw [isFolderAt, getFileTypeAt_cons_some _ s m1 p'
            (findChild_replaceChild_self cs s m m1 hfc)]
          exact hisf
        · show setNodeAt (FsNode.dir (replaceChild cs s m1)) (s :: p')
            (FsNode.dir []) = setNodeAt (FsNode.dir cs) (s :: p') (FsNode.dir [])
          simp only [setNodeAt, hfc, findChild_replaceChild_self cs s m m1 hfc]
          rw [replaceChild_replaceChild, hset]
      | none =>
        obtain ⟨m1, hmk, hisf, hset⟩ := ih (FsNode.dir []) (pathClear_empty_dir p')
        refine ⟨FsNode.dir (cs ++ [(s, m1)]), ?_, ?_, ?_⟩
        · show mkdirCreate (FsNode.dir cs) (s :: p') = _
          simp only [mkdirCreate, hfc, hmk]
        · show isFolderAt (FsNode.dir (cs ++ [(s, m1)])) (s :: p') = true
          rw [isFolderAt, getFileTypeAt_cons_some _ s m1 p'
            (findChild_append_new cs s m1 hfc)]
          exact hisf
        · show setNodeAt (FsNode.dir (cs ++ [(s, m1)])) (s :: p')
            (FsNode.dir []) = setNodeAt (FsNode.dir cs) (s :: p') (FsNode.dir [])
          simp only [setNodeAt, hfc, findChild_append_new cs s m1 hfc]
          rw [replaceChild_append_last cs s m1 _ hfc, hset]

theorem getFileTypeAt_of_clear : ∀ (p : List String) (fs : FsNode),
    pathClear fs p = true →
    getFileTypeAt fs p = "folder" ∨ getFileTypeAt fs p = "" := by
  intro p
  induction p with
  | nil =>
    intro fs h
    cases fs with
    | file c => exact Bool.noConfusion h
    | dir cs => exact Or.inl rfl
  | cons s p' ih =>
    intro fs h
    cases fs with
    | file c => exact Bool.noConfusion h
    | dir cs =>
      cases hfc : findChild cs s with
      | some m =>
        have h' : pathClear m p' = true := by
          simpa [pathClear, hfc] using h
        rw [getFileTypeAt_cons_some cs s m p' hfc]
        exact ih m h'
      | none =>
        right
        simp only [getFileTypeAt, lookupAt, hfc]

theorem mkdirRec_eq_folder (fs : FsNode) (p : List String)
    (hty : getFileTypeAt fs p = "folder") : mkdirRec fs p = (fs, "") := by
  rw [mkdirRec, hty]
  rfl

theorem mkdirRec_eq_create (fs : FsNode) (p : List String)
    (hty : getFileTypeAt fs p = "") (fs1 : FsNode)
    (hmk : mkdirCreate fs p = some fs1) : mkdirRec fs p = (fs1, "") := by
  rw [mkdirRec, hty, hmk]
  rfl

theorem mkdirRec_remove_net (p : List String) (fs : FsNode)
    (h : pathClear fs p = true) : (mkdirRec fs p).2 = "" ∧
    removeContents (mkdirRec fs p).1 p = setNodeAt fs p (FsNode.dir []) := by
  cases getFileTypeAt_of_clear p fs h with
  | inl hty =>
    have hisf : isFolderAt fs p = true := by rw [isFolderAt, hty]; rfl
    rw [mkdirRec_eq_folder fs p hty]
    exact ⟨rfl, by rw [removeContents, if_pos hisf]⟩
  | inr hty =>
    obtain ⟨fs1, hmk, hisf, hset⟩ := mkdirCreate_clear p fs h
    rw [mkdirRec_eq_create fs p hty fs1 hmk]
    exact ⟨rfl, by rw [removeContents, if_pos hisf]; exact hset⟩

theorem joinSlash_append_parts : ∀ (p r : List String), p ≠ [] → r ≠ [] →
    joinSlash (p ++ r) = joinSlash p ++ "/" ++ joinSlash r := by
  intro p
  induction p with
  | nil => intro r hp _; exact absurd rfl hp
  | cons a p' ih =>
    intro r _ hr
    cases p' with
    | nil =>
      cases r with
      | nil => exact absurd rfl hr
      | cons b t =>
        show joinSlash (a :: b :: t) = joinSlash [a] ++ "/" ++ joinSlash (b :: t)
        rw [joinSlash_cons₂]
        rfl
    | cons b p'' =>
      show joinSlash (a :: ((b :: p'') ++ r)) = _
      have hbr : (b :: p'') ++ r = b :: (p'' ++ r) := rfl
      rw [hbr, joinSlash_cons₂]
      cases hpr : p'' ++ r with
      | nil =>
        exfalso
        cases r with
        | nil => exact absurd rfl hr
        | cons c t => simp at hpr
      | cons c t =>
        rw [← hpr]
        have := ih r (by simp) hr
        rw [hbr] at this
        rw [this, joinSlash_cons₂]
        simp [String.append_assoc]

theorem mkPath_append_parts (p r : List String) (hp : p ≠ []) (hr : r ≠ []) :
    mkPath (p ++ r) = mkPath p ++ "/" ++ joinSlash r := by
  simp [mkPath, joinSlash_append_parts p r hp hr, String.append_assoc]

theorem data_mkPath_append (p r : List String) (hp : p ≠ []) (hr : r ≠ []) :
    (mkPath (p ++ r)).data = (mkPath p).data ++ '/' :: (joinSlash r).data := by
  rw [mkPath_append_parts p r hp hr]
  rw [String.data_append (mkPath p ++ "/") (joinSlash r),
    String.data_append (mkPath p) "/"]
  simp [List.append_assoc]

theorem strPrefixB_mono (p q : List String) (hp : p ≠ []) (h : p <+: q) :
    strPrefixB (mkPath p) (mkPath q) = true := by
  obtain ⟨r, hr⟩ := h
  cases r with
  | nil =>
    rw [← hr, List.append_nil]
    exact List.isPrefixOf_iff_prefix.mpr (List.prefix_refl _)
  | cons x t =>
    rw [← hr]
    apply List.isPrefixOf_iff_prefix.mpr
    rw [data_mkPath_append p (x :: t) hp (by simp)]
    exact List.prefix_append _ _

theorem prefix_of_append_cancel {α : Type} (A D N : List α)
    (h : A ++ N <+: D ++ N) : A <+: D := by
  have hlen : A.length ≤ D.length := by
    have h3 := h.length_le
    simp only [List.length_append] at h3
    omega
  have h2 : A <+: D ++ N := (List.prefix_append A N).trans h
  rw [List.prefix_iff_eq_take] at h2
  rw [List.take_append_eq_append_take] at h2
  rw [show A.length - D.length = 0 from by omega] at h2
  rw [List.take_zero, List.append_nil] at h2
  exact List.prefix_iff_eq_take.mpr h2

theorem prefix_append_one {α : Type} (p q : List α) (n : α)
    (h : p <+: q ++ [n]) : p <+: q ∨ p = q ++ [n] := by
  obtain ⟨t, ht⟩ := h
  cases t with
  | nil => right; rw [← ht, List.append_nil]
  | cons x t' =>
    left
    have hlen : p.length ≤ q.length := by
      have h3 := congrArg List.length ht
      simp only [List.length_append, List.length_cons, List.length_nil] at h3
      omega
    have h2 : p <+: q ++ [n] := ⟨x :: t', ht⟩
    rw [List.prefix_iff_eq_take] at h2
    rw [List.take_append_eq_append_take] at h2
    rw [show p.length - q.length = 0 from by omega] at h2
    rw [List.take_zero, List.append_nil] at h2
    exact List.prefix_iff_eq_take.mpr h2

theorem strPrefixB_extend_false (p q : List String) (n : String)
    (hp : p ≠ []) (hq : q ≠ [])
    (h : strPrefixB (mkPath p) (mkPath q) = false) :
    strPrefixB (mkPath (p ++ [n])) (mkPath (q ++ [n])) = false := by
  cases hb : strPrefixB (mkPath (p ++ [n])) (mkPath (q ++ [n])) with
  | false => rfl
  | true =>
    exfalso
    have hpre := List.isPrefixOf_iff_prefix.mp hb
    rw [data_mkPath_append p [n] hp (by simp),
      data_mkPath_append q [n] hq (by simp)] at hpre
    have hpre2 : (mkPath p).data ++ '/' :: (joinSlash [n]).data <+:
        (mkPath q).data ++ '/' :: (joinSlash [n]).data := hpre
    have hcancel : (mkPath p).data <+: (mkPath q).data :=
      prefix_of_append_cancel _ _ _ hpre2
    rw [show strPrefixB (mkPath p) (mkPath q) =
      ((mkPath p).data.isPrefixOf (mkPath q).data) from rfl] at h
    rw [List.isPrefixOf_iff_prefix.mpr hcancel] at h
    exact Bool.noConfusion h

theorem copy_net : ∀ (fuel : Nat) (fs : FsNode) (src dst : List String)
    (cs : List (String × FsNode)),
    lookupAt fs src = some (FsNode.dir cs) →
    wfFuel fuel (FsNode.dir cs) = true →
    pathClear fs dst = true →
    src ≠ [] → dst ≠ [] →
    ¬ dst <+: src →
    strPrefixB (mkPath src) (mkPath dst) = false →
    copyFolderContent fuel fs src dst = (setNodeAt fs dst (FsNode.dir cs), "") := by
  intro fuel
  induction fuel with
  | zero =>
    intro fs src dst cs _ hwf
    exact absurd hwf (by simp [wfFuel])
  | succ fuel ih =>
    intro fs src dst cs hlook hwf hclear hsrcne hdstne hndst hstr
    have hnsrc : ¬ src <+: dst := by
      intro hp
      rw [strPrefixB_mono src dst hsrcne hp] at hstr
      exact Bool.noConfusion hstr
    obtain ⟨hnodup, hall⟩ := (wfFuel_succ fuel cs).mp hwf
    have hisf : isFolderAt fs src = true := by
      simp [isFolderAt, getFileTypeAt, hlook]
    obtain ⟨herr, hnet⟩ := mkdirRec_remove_net dst fs hclear
    have hfold : ∀ (rest done : List (String × FsNode)), done ++ rest = cs →
        List.foldl (copyStep (copyFolderContent fuel) src dst)
          (setNodeAt fs dst (FsNode.dir done), "") rest =
        (setNodeAt fs dst (FsNode.dir cs), "") := by
      intro rest
      induction rest with
      | nil =>
        intro done hsplit
        rw [List.append_nil] at hsplit
        subst hsplit
        rfl
      | cons c rest' ihr =>
        intro done hsplit
        obtain ⟨n, child⟩ := c
        have hnone : findChild done n = none :=
          namesNodup_append_mid done n child rest'
            (by rw [hsplit]; exact hnodup)
        have hcur : lookupAt (setNodeAt fs dst (FsNode.dir done)) dst =
            some (FsNode.dir done) := by
          have h0 := lookupAt_setNodeAt_self dst fs (FsNode.dir done) [] hclear
          rw [List.append_nil] at h0
          exact h0.trans rfl
        have hndst1 : ¬ dst <+: src ++ [n] := by
          intro hp
          cases prefix_append_one dst src n hp with
          | inl h1 => exact hndst h1
          | inr h1 => exact hnsrc (by rw [h1]; exact List.prefix_append src [n])
        have hnsrc1 : ¬ src ++ [n] <+: dst := by
          intro hp
          exact hnsrc ((List.prefix_append src [n]).trans hp)
        have hfindn : findChild cs n = some child := by
          rw [← hsplit]
          exact findChild_append_mid done n child rest' hnone
        have hfsrc : lookupAt fs (src ++ [n]) = some child := by
          rw [lookupAt_append src fs [n], hlook]
          show lookupAt (FsNode.dir cs) [n] = some child
          simp only [lookupAt, hfindn]
        have hcurlookup : lookupAt (setNodeAt fs dst (FsNode.dir done))
            (src ++ [n]) = some child := by
          rw [lookupAt_setNodeAt_frame dst fs (FsNode.dir done) (src ++ [n])
            hndst1 hnsrc1]
          exact hfsrc
        cases child with
        | file b =>
          have hstep : copyStep (copyFolderContent fuel) src dst
              (setNodeAt fs dst (FsNode.dir done), "") (n, FsNode.file b) =
              (setNodeAt fs dst (FsNode.dir (done ++ [(n, FsNode.file b)])), "") := by
            show (if ("" : String) ≠ "" then (setNodeAt fs dst (FsNode.dir done), "")
              else (copyFileNode (setNodeAt fs dst (FsNode.dir done))
                (src ++ [n]) (dst ++ [n]), "")) = _
            rw [if_neg (show ¬(("" : String) ≠ "") from by simp)]
            rw [copyFileNode, hcurlookup]
            show (setNodeAt (setNodeAt fs dst (FsNode.dir done)) (dst ++ [n])
              (FsNode.file b), "") = _
            rw [setNodeAt_snoc_child dst fs done n (FsNode.file b) hclear hnone]
          simp only [List.foldl]
          rw [hstep]
          exact ihr (done ++ [(n, FsNode.file b)]) (by rw [← hsplit]; simp)
        | dir ccs =>
          have hwfc : wfFuel fuel (FsNode.dir ccs) = true :=
            hall (n, FsNode.dir ccs)
              (by rw [← hsplit]
                  exact List.mem_append_right _ (List.mem_cons_self _ _))
          have hclear1 : pathClear (setNodeAt fs dst (FsNode.dir done))
              (dst ++ [n]) = true :=
            pathClear_append_child dst _ done n hcur hnone
          have hstr1 : strPrefixB (mkPath (src ++ [n])) (mkPath (dst ++ [n])) =
              false := strPrefixB_extend_false src dst n hsrcne hdstne hstr
          have hndstext : ¬ dst ++ [n] <+: src ++ [n] := fun hp =>
            hndst (prefix_of_append_cancel dst src [n] hp)
          have hrec := ih (setNodeAt fs dst (FsNode.dir done)) (src ++ [n])
            (dst ++ [n]) ccs hcurlookup hwfc hclear1 (by simp) (by simp)
            hndstext hstr1
          have hstep : copyStep (copyFolderContent fuel) src dst
              (setNodeAt fs dst (FsNode.dir done), "") (n, FsNode.dir ccs) =
              (setNodeAt fs dst (FsNode.dir (done ++ [(n, FsNode.dir ccs)])), "") := by
            show (if ("" : String) ≠ "" then (setNodeAt fs dst (FsNode.dir done), "")
              else (match copyFolderContent fuel (setNodeAt fs dst (FsNode.dir done))
                  (src ++ [n]) (dst ++ [n]) with
                | (fsr, e) =>
                  if e ≠ "" then (removeContents fsr dst, e) else (fsr, ""))) = _
            rw [if_neg (show ¬(("" : String) ≠ "") from by simp)]
            rw [hrec]
            show (if ("" : String) ≠ "" then
                (removeContents (setNodeAt (setNodeAt fs dst (FsNode.dir done))
                  (dst ++ [n]) (FsNode.dir ccs)) dst, "")
              else (setNodeAt (setNodeAt fs dst (FsNode.dir done))
                (dst ++ [n]) (FsNode.dir ccs), "")) = _
            rw [if_neg (show ¬(("" : String) ≠ "") from by simp)]
            rw [setNodeAt_snoc_child dst fs done n (FsNode.dir ccs) hclear hnone]
          simp only [List.foldl]
          rw [hstep]
          exact ihr (done ++ [(n, FsNode.dir ccs)]) (by rw [← hsplit]; simp)
    have hmk2 : mkdirRec fs dst = ((mkdirRec fs dst).1, "") := by
      rw [← herr]
    have hrd : readdir (setNodeAt fs dst (FsNode.dir [])) src = cs := by
      rw [readdir, lookupAt_setNodeAt_frame dst fs (FsNode.dir []) src hndst hnsrc,
        hlook]
    simp only [copyFolderContent]
    rw [if_neg (not_not_intro hisf)]
    rw [hmk2]
    show (if ("" : String) ≠ "" then ((mkdirRec fs dst).1, "")
      else if strPrefixB (mkPath src) (mkPath dst) then
        ((mkdirRec fs dst).1,
          "Circular copy: " ++ mkPath src ++ " into " ++ mkPath dst)
      else
        (readdir (removeContents (mkdirRec fs dst).1 dst) src).foldl
          (copyStep (copyFolderContent fuel) src dst)
          (removeContents (mkdirRec fs dst).1 dst, "")) =
      (setNodeAt fs dst (FsNode.dir cs), "")
    rw [if_neg (show ¬(("" : String) ≠ "") from by simp)]
    rw [if_neg (show ¬(strPrefixB (mkPath src) (mkPath dst) = true) from by
      rw [hstr]; simp)]
    rw [hnet, hrd]
    exact hfold cs [] rfl

/-- Claim C3 (amended): `CYSUtils.copyFolderContent` always clears the
destination's contents before copying and is idempotent — for every
existing source folder and every prior destination state in which no
non-folder entry occupies the destination path or one of its ancestors
(and the two paths are not nested in either direction), one run succeeds
and replaces the destination subtree with a tree identical to the source's
children `cs` (so nothing of the prior destination survives), and a second
run returns the same tree unchanged. -/
theorem claimC3_copy_clears_and_idempotent (fuel : Nat) (fs : FsNode)
    (src dst : List String) (cs : List (String × FsNode))
    (hlook : lookupAt fs src = some (FsNode.dir cs))
    (hwf : wfFuel fuel (FsNode.dir cs) = true)
    (hclear : pathClear fs dst = true)
    (hsrcne : src ≠ []) (hdstne : dst ≠ [])
    (hndst : ¬ dst <+: src)
    (hstr : strPrefixB (mkPath src) (mkPath dst) = false) :
    copyFolderContent fuel fs src dst =
      (setNodeAt fs dst (FsNode.dir cs), "") ∧
    lookupAt (setNodeAt fs dst (FsNode.dir cs)) dst = some (FsNode.dir cs) ∧
    copyFolderContent fuel (setNodeAt fs dst (FsNode.dir cs)) src dst =
      (setNodeAt fs dst (FsNode.dir cs), "") := by
  have hnsrc : ¬ src <+: dst := by
    intro hp
    rw [strPrefixB_mono src dst hsrcne hp] at hstr
    exact Bool.noConfusion hstr
  have h1 := copy_net fuel fs src dst cs hlook hwf hclear hsrcne hdstne hndst hstr
  have hdst : lookupAt (setNodeAt fs dst (FsNode.dir cs)) dst =
      some (FsNode.dir cs) := by
    have h0 := lookupAt_setNodeAt_self dst fs (FsNode.dir cs) [] hclear
    rw [List.append_nil] at h0
    exact h0.trans rfl
  refine ⟨h1, hdst, ?_⟩
  have hlook2 : lookupAt (setNodeAt fs dst (FsNode.dir cs)) src =
      some (FsNode.dir cs) := by
    rw [lookupAt_setNodeAt_frame dst fs (FsNode.dir cs) src hndst hnsrc]
    exact hlook
  have hclear2 : pathClear (setNodeAt fs dst (FsNode.dir cs)) dst = true :=
    pathClear_of_lookup_dir dst _ cs hdst
  have h2 := copy_net fuel (setNodeAt fs dst (FsNode.dir cs)) src dst cs
    hlook2 hwf hclear2 hsrcne hdstne hndst hstr
  rw [setNodeAt_overwrite dst fs (FsNode.dir cs) (FsNode.dir cs)] at h2
  exact h2

theorem claimC3_copy_clears_and_idempotent_witness :
    (lookupAt fsC3 ["src"] = some (FsNode.dir csC3) ∧
      wfFuel 2 (FsNode.dir csC3) = true ∧
      pathClear fsC3 ["dst"] = true) ∧
    copyFolderContent 2 fsC3 ["src"] ["dst"] =
      (setNodeAt fsC3 ["dst"] (FsNode.dir csC3), "") ∧
    lookupAt (setNodeAt fsC3 ["dst"] (FsNode.dir csC3)) ["dst"] =
      some (FsNode.dir csC3) ∧
    copyFolderContent 2 (setNodeAt fsC3 ["dst"] (FsNode.dir csC3))
      ["src"] ["dst"] =
      (setNodeAt fsC3 ["dst"] (FsNode.dir csC3), "") :=
  ⟨⟨rfl, rfl, rfl⟩,
    claimC3_copy_clears_and_idempotent 2 fsC3 ["src"] ["dst"] csC3 rfl rfl rfl
      (by simp) (by simp) (by decide) rfl⟩

